import Mathlib

/-!
Shallow embedding of `reader.go` from the `bufiog` repository: a generic
buffered reader over an arbitrary element type `T`.

Modelling conventions, chosen to mirror the Go code as directly as possible:

* The underlying source (`rd ReadInterface[T]`, a single
  `Read(p []T) (int, error)` method) is modelled as a script: a list of
  responses, one per call.  Each call pops the head response `(c, e)` and
  behaves as Go `copy(p, c)` would: the data actually delivered is
  `c.take (len p)`, so the returned count always lies between `0` and the
  length of the slice handed to the source (the contract assumed by the
  code; a negative count is impossible over `Nat`).  An exhausted script
  answers `(0, end-of-stream)` forever, like a real source at EOF.
* The sink (`Write(p []T) (int, error)`) is likewise a script of
  `(count, error)` responses, the count clamped to the length of the slice
  written; an exhausted sink script absorbs everything, answering
  `(len p, nil)`.
* Scripted sources and sinks expose only the single basic capability, so
  the optional `WriteToInterface` / `ReadFromInterface` type switches in
  `WriteTo` always fail, exactly as for a plain Go source/sink.
* Go `panic` (out-of-range slice or index, negative count, "fill full
  buffer") is modelled by an operation returning `none`.  Loops whose
  termination Go gets from the source contract are driven by an explicit
  fuel that provably dominates the number of iterations; exhausted fuel
  also yields `none`.
* `b.lastElem *T` stores a Go pointer.  The code stores three different
  kinds of pointer: a pointer to a local copy (`ReadElem`), a pointer into
  the backing buffer (`Read`, buffered path: `&b.buf[b.r-1]`), and a
  pointer into the caller-supplied destination slice (`Read`, direct path:
  `&p[n-1]`).  These are modelled by the inductive `Last`; dereferencing
  a pointer into the caller's slice needs the current contents of that
  slice, which `UnreadElem` therefore receives as an explicit argument
  (the one piece of heap the reader does not own).
-/

namespace Bufiog

/-- Error values of the Go code: `io.EOF`, `io.ErrNoProgress`,
`ErrBufferFull`, `ErrNegativeCount`, `ErrInvalidUnreadElem`, plus arbitrary
further errors a source or sink may produce, tagged by a code. -/
inductive Err : Type where
  | eof : Err
  | noProgress : Err
  | bufferFull : Err
  | negativeCount : Err
  | invalidUnread : Err
  | srcErr : Nat → Err
deriving DecidableEq, Repr

/-- A scripted source: the list of `(data, error)` responses of successive
calls to the source's read method. -/
abbrev Src (T : Type) := List (List T × Option Err)

/-- A scripted sink: the list of `(count, error)` responses of successive
calls to the sink's write method. -/
abbrev Snk := List (Nat × Option Err)

/-- One call to the source with a slice of length `reqLen`: pop the head
response; the data delivered is clamped to the slice's length, as Go's
`copy` into `p` would clamp it.  An exhausted script answers
`(0, end-of-stream)`. -/
def srcRead {T : Type} (s : Src T) (reqLen : Nat) : (List T × Option Err) × Src T :=
  match s with
  | [] => (([], some Err.eof), [])
  | (c, e) :: rest => ((c.take reqLen, e), rest)

/-- One call to the sink with a slice of length `plen`: pop the head
response, the count clamped to `plen`.  An exhausted script absorbs the
whole slice with no error. -/
def snkWrite (s : Snk) (plen : Nat) : (Nat × Option Err) × Snk :=
  match s with
  | [] => ((plen, none), [])
  | (k, e) :: rest => ((min k plen, e), rest)

/-- Overwrite `buf` starting at `pos` with `chunk`, leaving the rest:
the effect of Go `copy(buf[pos:], chunk)` when `pos + len chunk ≤ len buf`. -/
def writeAt {T : Type} (buf : List T) (pos : Nat) (chunk : List T) : List T :=
  buf.take pos ++ chunk ++ buf.drop (pos + chunk.length)

/-- The `lastElem *T` field: either nil, or a pointer to a heap copy of an
element (`ReadElem` stores `&c` of a local), or a pointer into the backing
buffer at a given index, or a pointer into the caller's destination slice
at a given index (the direct-read path stores `&p[n-1]`). -/
inductive Last (T : Type) : Type where
  | invalid : Last T
  | copied : T → Last T
  | bufIdx : Nat → Last T
  | destIdx : Nat → Last T
deriving DecidableEq, Repr

/-- The `Reader[T]` struct of `reader.go`: backing buffer, source, read and
write cursors, the sticky error, and the last-element pointer. -/
structure Reader (T : Type) : Type where
  buf : List T
  rd : Src T
  r : Nat
  w : Nat
  err : Option Err
  lastElem : Last T
deriving DecidableEq, Repr

/-- Constant `defaultBufSize = 64`. -/
def defaultBufSize : Nat := 64

/-- Constant `maxConsecutiveEmptyReads = 100`. -/
def maxConsecutiveEmptyReads : Nat := 100

/-- Constant `minReadBufferSize = 16`. -/
def minReadBufferSize : Nat := 16

namespace Reader

variable {T : Type}

/-- Method `Buffered`: the number of elements in the valid region `[r, w)`. -/
def Buffered (b : Reader T) : Nat := b.w - b.r

/-- Method `Size`: the length of the backing buffer. -/
def Size (b : Reader T) : Nat := b.buf.length

/-- Method `readErr`: return the pending error and clear it. -/
def readErr (b : Reader T) : Option Err × Reader T :=
  (b.err, { b with err := none })

/-- The currently valid region `buf[r:w]`. -/
def validRegion (b : Reader T) : List T := (b.buf.drop b.r).take (b.w - b.r)

/-- The slide step at the top of `fill`: if `r > 0`, copy the valid region
to the front of the buffer and recompute the cursors. -/
def slide (b : Reader T) : Reader T :=
  if 0 < b.r then
    { b with buf := writeAt b.buf 0 b.validRegion, w := b.w - b.r, r := 0 }
  else b

/-- One source call of the `fill` retry loop: the source reads into the
free tail `buf[w:]` and the delivered count is appended to `w`. -/
def fillStep (b : Reader T) : Reader T :=
  { b with rd := (srcRead b.rd (b.buf.length - b.w)).2,
           buf := writeAt b.buf b.w (srcRead b.rd (b.buf.length - b.w)).1.1,
           w := b.w + ((srcRead b.rd (b.buf.length - b.w)).1.1).length }

/-- The retry loop of `fill`: up to `maxConsecutiveEmptyReads` source calls
into the free tail `buf[w:]`; the count is appended to `w` first, then an
error from the same call is recorded and ends the loop, then a positive
count ends the loop; if the fuel runs out with neither, the distinguished
no-progress error is recorded. -/
def fillLoop (b : Reader T) : Nat → Reader T
  | 0 => { b with err := some Err.noProgress }
  | i + 1 =>
    match (srcRead b.rd (b.buf.length - b.w)).1.2 with
    | some e => { b.fillStep with err := some e }
    | none =>
      if 0 < ((srcRead b.rd (b.buf.length - b.w)).1.1).length then b.fillStep
      else fillLoop b.fillStep i

/-- Method `fill`: slide the valid region to the front, panic (`none`) if
the buffer is already full, then run the bounded retry loop.  A state with
`w < r` or `w` beyond the buffer makes Go's slice expression `buf[r:w]`
panic, also modelled by `none`. -/
def fill (b : Reader T) : Option (Reader T) :=
  if b.w < b.r ∨ b.buf.length < b.w then none
  else if b.slide.buf.length ≤ b.slide.w then none
  else some (fillLoop b.slide maxConsecutiveEmptyReads)

/-- The final copy step of `Read`: copy as much of `buf[r:w]` as fits into
the destination of length `plen`, advance `r`, and point `lastElem` at the
buffer cell of the last element copied. -/
def copyStep (b : Reader T) (plen : Nat) : Option (List T × Option Err × Reader T) :=
  if b.w < b.r ∨ b.buf.length < b.w then none
  else
    let d := b.validRegion.take plen
    some (d, none,
      { b with r := b.r + d.length, lastElem := Last.bufIdx (b.r + d.length - 1) })

/-- Method `Read`: the returned list is the data written into the
caller's destination slice (of length `plen`).  Empty destination: report
a pending error only if nothing is buffered.  Empty valid region: a pending
error is returned without touching the source; a destination at least as
large as the buffer triggers the direct zero-copy read, pointing `lastElem`
into the destination; otherwise one single (non-retrying) source read into
the buffer, then the common copy step. -/
def Read (b : Reader T) (plen : Nat) : Option (List T × Option Err × Reader T) :=
  if plen = 0 then
    if 0 < b.Buffered then some ([], none, b)
    else some ([], b.err, { b with err := none })
  else if b.r = b.w then
    if b.err.isSome then some ([], b.err, { b with err := none })
    else if b.buf.length ≤ plen then
      some ((srcRead b.rd plen).1.1, (srcRead b.rd plen).1.2,
        { b with rd := (srcRead b.rd plen).2, err := none,
                 lastElem := if 0 < (srcRead b.rd plen).1.1.length
                   then Last.destIdx ((srcRead b.rd plen).1.1.length - 1)
                   else b.lastElem })
    else
      if ((srcRead b.rd b.buf.length).1.1).length = 0 then
        some ([], (srcRead b.rd b.buf.length).1.2,
          { b with rd := (srcRead b.rd b.buf.length).2, err := none, r := 0, w := 0,
                   buf := writeAt b.buf 0 (srcRead b.rd b.buf.length).1.1 })
      else
        copyStep
          { b with rd := (srcRead b.rd b.buf.length).2,
                   err := (srcRead b.rd b.buf.length).1.2, r := 0,
                   w := ((srcRead b.rd b.buf.length).1.1).length,
                   buf := writeAt b.buf 0 (srcRead b.rd b.buf.length).1.1 } plen
  else copyStep b plen

/-- The loop of `ReadElem`: while the valid region is empty, return a
pending error if set, else `fill`.  Once an element is available it is
copied into a local, the cursor advances, and `lastElem` points at the
copy.  `fill` always records an error or makes progress, so the loop body
runs at most twice; the fuel of `2` used by `ReadElem` is never exhausted
from a state Go reaches. -/
def readElemLoop [Inhabited T] (b : Reader T) : Nat → Option (T × Option Err × Reader T)
  | 0 => none
  | fuel + 1 =>
    if b.r = b.w then
      match b.err with
      | some _ => some (default, b.err, { b with err := none })
      | none =>
        match b.fill with
        | none => none
        | some b₁ => readElemLoop b₁ fuel
    else
      match b.buf[b.r]? with
      | none => none
      | some c => some (c, none, { b with r := b.r + 1, lastElem := Last.copied c })

/-- Method `ReadElem`. -/
def ReadElem [Inhabited T] (b : Reader T) : Option (T × Option Err × Reader T) :=
  b.readElemLoop 2

/-- The fill loop of `Peek`: while the buffered count is below the request,
below capacity, and no error is pending, `fill`.  Each `fill` grows the
buffered count or records an error, so `Peek`'s fuel of capacity plus two
is never exhausted from a well-formed state. -/
def peekLoop (b : Reader T) (n : Nat) : Nat → Option (Reader T)
  | 0 => none
  | fuel + 1 =>
    if b.w - b.r < n ∧ b.w - b.r < b.buf.length ∧ b.err = none then
      match b.fill with
      | none => none
      | some b₁ => peekLoop b₁ n fuel
    else some b

/-- Method `Peek`: negative count fails with no side effect; otherwise the
last-element pointer is invalidated, the buffer is filled as far as needed
or possible, and the result is a prefix of the valid region together with
an error explaining any shortfall (`bufferFull` for a request beyond
capacity, else the pending error, else `bufferFull`). -/
def Peek (b : Reader T) (n : Int) : Option (List T × Option Err × Reader T) :=
  if n < 0 then some ([], some Err.negativeCount, b)
  else
    let nn := n.toNat
    let b₀ : Reader T := { b with lastElem := Last.invalid }
    match peekLoop b₀ nn (b₀.buf.length + 2) with
    | none => none
    | some b₁ =>
      if b₁.w < b₁.r ∨ b₁.buf.length < b₁.w then none
      else if b₁.buf.length < nn then some (b₁.validRegion, some Err.bufferFull, b₁)
      else
        let avail := b₁.w - b₁.r
        if avail < nn then
          let res := b₁.readErr
          let e := match res.1 with
            | some e₀ => some e₀
            | none => some Err.bufferFull
          some (b₁.validRegion, e, res.2)
        else some (b₁.validRegion.take nn, none, b₁)

/-- The loop of `Discard`: if nothing is buffered, `fill`; consume
`min (buffered) remain`; succeed once `remain` hits zero; surface the
pending error once one is set before that.  Every iteration that loops
again has strictly decreased `remain`, so the fuel `n + 1` chosen by
`Discard` is never exhausted. -/
def discardLoop (b : Reader T) (n : Nat) (remain : Nat) :
    Nat → Option (Nat × Option Err × Reader T)
  | 0 => none
  | fuel + 1 =>
    let step : Option (Reader T) := if b.Buffered = 0 then b.fill else some b
    match step with
    | none => none
    | some b₁ =>
      let skip := min b₁.Buffered remain
      let b₂ : Reader T := { b₁ with r := b₁.r + skip }
      let remain₁ := remain - skip
      if remain₁ = 0 then some (n, none, b₂)
      else if b₂.err.isSome then some (n - remain₁, b₂.err, { b₂ with err := none })
      else discardLoop b₂ n remain₁ fuel

/-- Method `Discard`: negative count fails with no side effect, zero
succeeds with no side effect (in particular `lastElem` is untouched);
otherwise the last-element pointer is invalidated and the loop runs. -/
def Discard (b : Reader T) (n : Int) : Option (Nat × Option Err × Reader T) :=
  if n < 0 then some (0, some Err.negativeCount, b)
  else if n = 0 then some (0, none, b)
  else discardLoop { b with lastElem := Last.invalid } n.toNat n.toNat (n.toNat + 1)

/-- Dereference the last-element pointer: a heap copy yields its value, a
buffer pointer yields the current content of that buffer cell, a pointer
into the caller's destination slice yields the current content of that
slice (passed in by the caller of `UnreadElem`). -/
def derefLast (l : Last T) (buf dest : List T) : Option T :=
  match l with
  | Last.invalid => none
  | Last.copied x => some x
  | Last.bufIdx i => buf[i]?
  | Last.destIdx i => dest[i]?

/-- Method `UnreadElem`: fails with `invalidUnread` if the last-element
pointer is nil or `r = 0 ∧ w > 0`; otherwise decrements `r` (or, with the
buffer drained, sets `w = 1`), stores the dereferenced last element at the
new `r`, and clears the pointer.  `dest` is the current contents of the
slice most recently passed to `Read`, needed to dereference a pointer of
the direct-read path. -/
def UnreadElem [DecidableEq T] (b : Reader T) (dest : List T) :
    Option (Option Err × Reader T) :=
  if b.lastElem = Last.invalid ∨ (b.r = 0 ∧ 0 < b.w) then
    some (some Err.invalidUnread, b)
  else
    match derefLast b.lastElem b.buf dest with
    | none => none
    | some x =>
      if 0 < b.r then
        if b.buf.length ≤ b.r - 1 then none
        else some (none,
          { b with r := b.r - 1, buf := b.buf.set (b.r - 1) x, lastElem := Last.invalid })
      else
        if b.buf.length ≤ b.r then none
        else some (none,
          { b with w := 1, buf := b.buf.set b.r x, lastElem := Last.invalid })

/-- Method `writeBuf`: write the valid region to the sink and advance `r`
by the count the sink reports. -/
def writeBuf (b : Reader T) (s : Snk) : Option (Nat × Option Err × Reader T × Snk) :=
  if b.w < b.r ∨ b.buf.length < b.w then none
  else
    let res := snkWrite s (b.w - b.r)
    some (res.1.1, res.1.2, { b with r := b.r + res.1.1 }, res.2)

/-- The flush-then-fill loop of `WriteTo`: while the valid region is not
empty, flush it (returning the accumulated count and the error on a write
error) and `fill` again.  Each iteration that loops consumes a sink or a
source script entry, so the fuel chosen by `WriteTo` is never exhausted. -/
def writeToLoop (b : Reader T) (s : Snk) (acc : Nat) :
    Nat → Option (Nat × Option Err × Reader T × Snk)
  | 0 => none
  | fuel + 1 =>
    if b.r < b.w then
      match b.writeBuf s with
      | none => none
      | some (m, e, b₁, s₁) =>
        if e.isSome then some (acc + m, e, b₁, s₁)
        else
          match b₁.fill with
          | none => none
          | some b₂ => writeToLoop b₂ s₁ (acc + m) fuel
    else some (acc, none, b, s)

/-- Method `WriteTo`: invalidate the last-element pointer, flush the
buffered region (surfacing a write error with the partial count), skip the
bulk-transfer delegation branches (scripted sources and sinks expose no
such capability), fill once if the buffer is not full, run the
flush-then-fill loop, then swallow a pending end-of-stream error and
return the total with the remaining pending error consumed. -/
def WriteTo (b : Reader T) (s : Snk) : Option (Nat × Option Err × Reader T × Snk) :=
  let b₀ : Reader T := { b with lastElem := Last.invalid }
  match b₀.writeBuf s with
  | none => none
  | some (m, e, b₁, s₁) =>
    if e.isSome then some (m, e, b₁, s₁)
    else
      let step : Option (Reader T) :=
        if b₁.w - b₁.r < b₁.buf.length then b₁.fill else some b₁
      match step with
      | none => none
      | some b₂ =>
        match writeToLoop b₂ s₁ m (b₂.rd.length + s₁.length + 2) with
        | none => none
        | some (n, e₂, b₃, s₃) =>
          if e₂.isSome then some (n, e₂, b₃, s₃)
          else
            let b₄ : Reader T := if b₃.err = some Err.eof then { b₃ with err := none } else b₃
            some (n, b₄.err, { b₄ with err := none }, s₃)

/-- Method `Reset` for a source that is not the reader itself (Go guards
resetting a reader to itself by pointer identity and does nothing then; a
script argument is never the reader, and the self branch is the identity):
allocate a default-size buffer if none was ever allocated, then discard
all state and rebind the source. -/
def Reset [Inhabited T] (b : Reader T) (r : Src T) : Reader T :=
  let buf := if b.buf.isEmpty then List.replicate defaultBufSize (default : T) else b.buf
  { buf := buf, rd := r, r := 0, w := 0, err := none, lastElem := Last.invalid }

end Reader

/-- Constructor `NewReaderSize` for a plain (non-`Reader`) source: the
requested size is clamped up to `minReadBufferSize` (a negative request
likewise), and a fresh zeroed buffer of that size is allocated. -/
def NewReaderSize [Inhabited T] (rd : Src T) (size : Int) : Reader T :=
  let sz : Int := if size < (minReadBufferSize : Int) then (minReadBufferSize : Int) else size
  { buf := List.replicate sz.toNat (default : T), rd := rd, r := 0, w := 0,
    err := none, lastElem := Last.invalid }

/-- The type-switch branch of `NewReaderSize` for an argument that is
itself already a `Reader`: when the existing buffer length is at least the
requested size, the very same reader is returned unchanged.  Otherwise the
Go code builds a fresh reader wrapping the argument as its source; a
reader used as a source is outside the script source model, so that branch
is marked `none` here. -/
def newReaderSizeOnReader {T : Type} (b : Reader T) (size : Int) : Option (Reader T) :=
  if size ≤ (b.buf.length : Int) then some b else none

/-- Constructor `NewReader`: default size. -/
def NewReader [Inhabited T] (rd : Src T) : Reader T :=
  NewReaderSize rd (defaultBufSize : Int)

/-- Well-formedness of the cursors: `0 ≤ r ≤ w ≤ capacity` (the lower
bound is vacuous over `Nat`). -/
def Wf {T : Type} (b : Reader T) : Prop := b.r ≤ b.w ∧ b.w ≤ b.buf.length

instance {T : Type} (b : Reader T) : Decidable (Wf b) := by
  unfold Wf; exact inferInstance

end Bufiog

namespace Bufiog

theorem writeAt_nil {T : Type} (buf : List T) (pos : Nat) : writeAt buf pos [] = buf := by
  simp [writeAt]

theorem length_writeAt {T : Type} (buf chunk : List T) (pos : Nat)
    (h : pos + chunk.length ≤ buf.length) :
    (writeAt buf pos chunk).length = buf.length := by
  simp only [writeAt, List.length_append, List.length_take, List.length_drop]
  omega

theorem validRegion_length {T : Type} (b : Reader T) (hwl : b.w ≤ b.buf.length) :
    b.validRegion.length = b.w - b.r := by
  simp only [Reader.validRegion, List.length_take, List.length_drop]
  omega

namespace Reader

theorem slide_rd {T : Type} (b : Reader T) : b.slide.rd = b.rd := by
  unfold slide; split <;> rfl

theorem slide_err {T : Type} (b : Reader T) : b.slide.err = b.err := by
  unfold slide; split <;> rfl

theorem slide_lastElem {T : Type} (b : Reader T) : b.slide.lastElem = b.lastElem := by
  unfold slide; split <;> rfl

theorem slide_r {T : Type} (b : Reader T) : b.slide.r = 0 := by
  unfold slide; split
  · rfl
  · next h => omega

theorem slide_w {T : Type} (b : Reader T) : b.slide.w = b.w - b.r := by
  unfold slide; split
  · rfl
  · next h => omega

theorem slide_buf_length {T : Type} (b : Reader T) (hrw : b.r ≤ b.w) (hwl : b.w ≤ b.buf.length) :
    b.slide.buf.length = b.buf.length := by
  unfold slide; split
  · exact length_writeAt _ _ _ (by
      simp only [Reader.validRegion, List.length_take, List.length_drop]
      omega)
  · rfl

theorem fillStep_of_head_empty {T : Type} (b : Reader T) (e : Option Err) (rest : Src T)
    (hrd : b.rd = ([], e) :: rest) : b.fillStep = { b with rd := rest } := by
  simp [fillStep, hrd, srcRead, writeAt_nil]

theorem fillLoop_replicate_empty {T : Type} (k : Nat) (b : Reader T) (rest : Src T)
    (hrd : b.rd = List.replicate k (([] : List T), (none : Option Err)) ++ rest) :
    fillLoop b k = { b with rd := rest, err := some Err.noProgress } := by
  induction k generalizing b with
  | zero =>
    simp only [List.replicate, List.nil_append] at hrd
    simp [fillLoop, ← hrd]
  | succ i ih =>
    rw [List.replicate_succ, List.cons_append] at hrd
    have hstep := fillStep_of_head_empty b none _ hrd
    rw [fillLoop, hrd]
    simp only [srcRead, List.take_nil, List.length_nil, Nat.lt_irrefl, if_false]
    rw [hstep, ih { b with rd := List.replicate i ([], none) ++ rest } rfl]

end Reader

/-- C1: if the source returns `(0, nil)` on the first 100 attempts of a
single `fill`, then `fill` performs exactly those 100 source calls (the
remainder `rest` of the source script, e.g. the 101st end-of-stream
response, is left untouched), records the distinguished no-progress error,
and leaves the reader otherwise as the initial slide left it. -/
theorem fill_noProgress_exact_bound {T : Type} (b : Reader T) (rest : Src T)
    (hrd : b.rd = List.replicate 100 (([] : List T), (none : Option Err)) ++ rest)
    (hrw : b.r ≤ b.w) (hwl : b.w ≤ b.buf.length) (hfree : b.w - b.r < b.buf.length) :
    Reader.fill b = some { b.slide with rd := rest, err := some Err.noProgress } := by
  unfold Reader.fill
  rw [if_neg (by omega : ¬(b.w < b.r ∨ b.buf.length < b.w))]
  have hlen := Reader.slide_buf_length b hrw hwl
  have hnotfull : ¬ b.slide.buf.length ≤ b.slide.w := by
    rw [Reader.slide_w, hlen]; omega
  rw [if_neg hnotfull]
  rw [show maxConsecutiveEmptyReads = 100 from rfl]
  rw [Reader.fillLoop_replicate_empty 100 b.slide rest (by rw [Reader.slide_rd, hrd])]

/-- Concrete state for the C1 witness: a fresh reader of capacity 16 whose
source answers `(0, nil)` 100 times and then `(0, end-of-stream)`. -/
def c1State : Reader Nat :=
  { buf := List.replicate 16 0,
    rd := List.replicate 100 (([] : List Nat), (none : Option Err)) ++ [([], some Err.eof)],
    r := 0, w := 0, err := none, lastElem := Last.invalid }

/-- C1 witness: on the concrete `c1State`, `fill` ends with the no-progress
error (not end-of-stream) and the 101st response is still unconsumed. -/
theorem fill_noProgress_exact_bound_witness :
    Reader.fill c1State =
      some { c1State.slide with rd := [([], some Err.eof)], err := some Err.noProgress } :=
  fill_noProgress_exact_bound c1State [([], some Err.eof)] rfl
    (by decide) (by decide) (by decide)

end Bufiog


namespace Bufiog

namespace Reader

/-- Every successful `readElemLoop` run ends in the direct read branch:
there is a state `bb` (the reader after the fills, possibly `b` itself)
with a nonempty valid region whose front element is returned, the cursor
advanced and a copy recorded. -/
theorem readElemLoop_success {T : Type} [Inhabited T] (fuel : Nat) (b b₁ : Reader T) (x : T)
    (h : readElemLoop b fuel = some (x, none, b₁)) :
    ∃ bb : Reader T, bb.buf[bb.r]? = some x ∧ ¬ bb.r = bb.w ∧
      b₁ = { bb with r := bb.r + 1, lastElem := Last.copied x } := by
  induction fuel generalizing b with
  | zero => simp [readElemLoop] at h
  | succ i ih =>
    by_cases hrw : b.r = b.w
    · rw [readElemLoop, if_pos hrw] at h
      split at h
      · rename_i e herr
        rw [herr] at h
        simp at h
      · split at h
        · cases h
        · rename_i b₂ hf
          exact ih _ h
    · rw [readElemLoop, if_neg hrw] at h
      split at h
      · cases h
      · rename_i c hc
        simp only [Option.some.injEq, Prod.mk.injEq] at h
        exact ⟨b, by rw [hc, h.1], hrw, by rw [← h.2.2, ← h.1]⟩

/-- When the failure condition of `UnreadElem` does not hold, its result is
never the invalid-unread error: it either panics or succeeds clearing the
last-element pointer. -/
theorem unreadElem_not_fail {T : Type} [DecidableEq T] (b : Reader T) (dest : List T)
    (hc : ¬ (b.lastElem = Last.invalid ∨ (b.r = 0 ∧ 0 < b.w))) :
    UnreadElem b dest = none ∨
      ∃ b₂ : Reader T, UnreadElem b dest = some (none, b₂) ∧ b₂.lastElem = Last.invalid := by
  rw [UnreadElem]
  rw [if_neg hc]
  cases hd : derefLast b.lastElem b.buf dest with
  | none => exact Or.inl (by simp [hd])
  | some x =>
    simp only [hd]
    by_cases hr : 0 < b.r
    · rw [if_pos hr]
      by_cases hlen : b.buf.length ≤ b.r - 1
      · rw [if_pos hlen]; exact Or.inl rfl
      · rw [if_neg hlen]; exact Or.inr ⟨_, rfl, rfl⟩
    · rw [if_neg hr]
      by_cases hlen : b.buf.length ≤ b.r
      · rw [if_pos hlen]; exact Or.inl rfl
      · rw [if_neg hlen]; exact Or.inr ⟨_, rfl, rfl⟩

/-- Effect of `UnreadElem` on the state a successful read leaves behind:
the cursor steps back and the remembered copy is stored in the buffer. -/
theorem unread_after_readElem {T : Type} [DecidableEq T] (bb : Reader T) (x : T) (dest : List T)
    (hlt : bb.r < bb.buf.length) :
    UnreadElem { bb with r := bb.r + 1, lastElem := Last.copied x } dest =
      some (none, { bb with buf := bb.buf.set bb.r x, lastElem := Last.invalid }) := by
  rw [UnreadElem]
  rw [if_neg (by simp)]
  simp only [derefLast]
  rw [if_pos (Nat.succ_pos bb.r)]
  simp only [Nat.add_sub_cancel]
  rw [if_neg (Nat.not_le.mpr hlt)]

/-- A state with a nonempty valid region at the cursor makes `ReadElem`
return the element at the cursor directly. -/
theorem readElem_direct {T : Type} [Inhabited T] (b : Reader T) (c : T)
    (hc : b.buf[b.r]? = some c) (hne : ¬ b.r = b.w) :
    ReadElem b = some (c, none, { b with r := b.r + 1, lastElem := Last.copied c }) := by
  rw [ReadElem, readElemLoop, if_neg hne, hc]

end Reader

/-- C2: `UnreadElem` fails with the invalid-unread error exactly when the
last-element pointer is nil or `r = 0 ∧ w > 0` (leaving the reader
unchanged); after a successful `ReadElem` returning `x`, an `UnreadElem`
succeeds with no error and the next `ReadElem` returns `x` again with no
error; and after a successful `UnreadElem`, a second consecutive
`UnreadElem` with no intervening read fails with the invalid-unread
error. -/
theorem unreadElem_contract {T : Type} [Inhabited T] [DecidableEq T]
    (b : Reader T) (dest : List T) :
    (Reader.UnreadElem b dest = some (some Err.invalidUnread, b) ↔
      (b.lastElem = Last.invalid ∨ (b.r = 0 ∧ 0 < b.w))) ∧
    (∀ x b₁, Reader.ReadElem b = some (x, none, b₁) →
      ((Reader.UnreadElem b₁ dest).bind fun p =>
        (Reader.ReadElem p.2).map fun q => (p.1, q.1, q.2.1)) = some (none, x, none)) ∧
    (∀ b₁, Reader.UnreadElem b dest = some (none, b₁) →
      Reader.UnreadElem b₁ dest = some (some Err.invalidUnread, b₁)) := by
  refine ⟨⟨?_, ?_⟩, ?_, ?_⟩
  · intro h
    by_contra hc
    rcases Reader.unreadElem_not_fail b dest hc with hn | ⟨b₂, hs, -⟩
    · rw [hn] at h; cases h
    · rw [hs] at h; simp at h
  · intro h
    rw [Reader.UnreadElem, if_pos h]
  · intro x b₁ h
    obtain ⟨bb, hget, hne, hb₁⟩ := Reader.readElemLoop_success 2 b b₁ x h
    have hlt : bb.r < bb.buf.length := by
      by_contra hge
      rw [List.getElem?_eq_none (Nat.le_of_not_lt hge)] at hget
      cases hget
    have h₃ := Reader.readElem_direct (T := T)
      { bb with buf := bb.buf.set bb.r x, lastElem := Last.invalid } x
      (List.getElem?_set_eq_of_lt x hlt) hne
    rw [hb₁, Reader.unread_after_readElem bb x dest hlt]
    simp [h₃]
  · intro b₁ h
    by_cases hc : (b.lastElem = Last.invalid ∨ (b.r = 0 ∧ 0 < b.w))
    · rw [Reader.UnreadElem, if_pos hc] at h
      simp at h
    · rcases Reader.unreadElem_not_fail b dest hc with hn | ⟨b₂, hs, hinv⟩
      · rw [hn] at h; cases h
      · rw [hs] at h
        simp only [Option.some.injEq, Prod.mk.injEq] at h
        rw [Reader.UnreadElem, if_pos (Or.inl (h.2 ▸ hinv))]

/-- Concrete state for the C2 witness: two buffered elements `3, 4` at the
front of a capacity-3 buffer, nothing pending, no remembered element. -/
def c2State : Reader Nat :=
  { buf := [3, 4, 0], rd := [], r := 0, w := 2, err := none, lastElem := Last.invalid }

/-- The reader after `ReadElem c2State` returned `3`. -/
def c2StateAfter : Reader Nat :=
  { buf := [3, 4, 0], rd := [], r := 1, w := 2, err := none, lastElem := Last.copied 3 }

/-- C2 witness: on the concrete states, unread-then-read returns `3` again
with no error, and `UnreadElem` on a state with no remembered element
fails with the invalid-unread error. -/
theorem unreadElem_contract_witness :
    ((Reader.UnreadElem c2StateAfter ([] : List Nat)).bind fun p =>
      (Reader.ReadElem p.2).map fun q => (p.1, q.1, q.2.1)) = some (none, 3, none) ∧
    Reader.UnreadElem c2State ([] : List Nat) = some (some Err.invalidUnread, c2State) :=
  ⟨(unreadElem_contract c2State []).2.1 3 c2StateAfter rfl,
   (unreadElem_contract c2State []).1.mpr (Or.inl rfl)⟩

end Bufiog

namespace Bufiog

namespace Reader

/-- Element lookup through the nested take/take/drop shape of a prefix of
the valid region. -/
theorem getElem?_take_take_drop {T : Type} (l : List T) (r k p i : Nat)
    (hik : i < k) (hip : i < p) :
    (((l.drop r).take k).take p)[i]? = l[r + i]? := by
  rw [List.getElem?_take, if_pos hip, List.getElem?_take, if_pos hik, List.getElem?_drop]

/-- Characterization of a non-panicking `copyStep`. -/
theorem copyStep_some {T : Type} {b : Reader T} {plen : Nat} {d : List T} {e : Option Err}
    {b₁ : Reader T} (h : copyStep b plen = some (d, e, b₁)) :
    b.r ≤ b.w ∧ b.w ≤ b.buf.length ∧ d = b.validRegion.take plen ∧ e = none ∧
      b₁ = { b with r := b.r + d.length, lastElem := Last.bufIdx (b.r + d.length - 1) } := by
  rw [copyStep] at h
  split at h
  · cases h
  · next hg =>
    push_neg at hg
    simp only [Option.some.injEq, Prod.mk.injEq] at h
    refine ⟨Nat.le_of_lt_succ (Nat.lt_succ_of_le hg.1), hg.2, h.1.symm, h.2.1.symm, ?_⟩
    rw [← h.2.2, h.1]

/-- After a non-empty `copyStep`, the last-element pointer aliases the
buffer cell holding the last element just copied out. -/
theorem copyStep_deref {T : Type} {b : Reader T} {plen : Nat} {d : List T} {e : Option Err}
    {b₁ : Reader T} (h : copyStep b plen = some (d, e, b₁)) (hne : d ≠ []) (ds : List T) :
    derefLast b₁.lastElem b₁.buf ds = d.getLast? := by
  obtain ⟨hrw, hwl, hd, -, hb₁⟩ := copyStep_some h
  have hpos : 0 < d.length := List.length_pos.mpr hne
  have hlen₁ : d.length ≤ plen := by
    rw [hd, List.length_take]
    exact Nat.min_le_left _ _
  have hlen₂ : d.length ≤ b.w - b.r := by
    rw [hd]
    simp only [List.length_take, validRegion, List.length_drop]
    omega
  rw [hb₁]
  show b.buf[b.r + d.length - 1]? = d.getLast?
  rw [List.getLast?_eq_getElem? d]
  obtain ⟨i, hi⟩ : ∃ i, i = d.length - 1 := ⟨_, rfl⟩
  have hdl := congrArg List.length hd
  rw [validRegion, List.length_take, List.length_take, List.length_drop] at hdl
  rw [← hi, hd, validRegion, getElem?_take_take_drop b.buf b.r (b.w - b.r) plen i
    (by omega) (by omega)]
  congr 1
  simp only [List.length_take, List.length_drop]
  omega

end Reader

/-- C3 (amended): after a successful `ReadElem`, the last-element slot is a
copy of the returned element, independent of any later buffer or
destination contents; after a successful non-empty bulk `Read` on the
buffered path, it aliases the buffer cell currently holding the last
returned element (which at that point equals the last returned element);
after a successful non-empty bulk `Read` on the direct path, it aliases
the last filled cell of the caller's destination slice, so dereferencing
tracks the current destination contents `ds`, not the value returned. -/
theorem lastElem_semantics {T : Type} [Inhabited T] (b : Reader T) :
    (∀ x b₁, Reader.ReadElem b = some (x, none, b₁) →
        ∀ buf ds, Reader.derefLast b₁.lastElem buf ds = some x) ∧
    (∀ plen d e b₁, Reader.Read b plen = some (d, e, b₁) → d ≠ [] →
        ((¬ b.r = b.w ∨ ¬ b.buf.length ≤ plen) →
            ∀ ds, Reader.derefLast b₁.lastElem b₁.buf ds = d.getLast?) ∧
        (b.r = b.w → b.buf.length ≤ plen →
            ∀ ds, Reader.derefLast b₁.lastElem b₁.buf ds = ds[d.length - 1]?)) := by
  constructor
  · intro x b₁ h buf ds
    obtain ⟨bb, -, -, hb₁⟩ := Reader.readElemLoop_success 2 b b₁ x h
    rw [hb₁]
    rfl
  · intro plen d e b₁ h hne
    by_cases hp : plen = 0
    · subst hp
      rw [Reader.Read, if_pos rfl] at h
      split at h <;>
        · simp only [Option.some.injEq, Prod.mk.injEq] at h
          exact absurd h.1.symm hne
    · rw [Reader.Read, if_neg hp] at h
      by_cases hrw : b.r = b.w
      · rw [if_pos hrw] at h
        by_cases herr : b.err.isSome
        · rw [if_pos herr] at h
          simp only [Option.some.injEq, Prod.mk.injEq] at h
          exact absurd h.1.symm hne
        · rw [if_neg herr] at h
          by_cases hlen : b.buf.length ≤ plen
          · rw [if_pos hlen] at h
            simp only [Option.some.injEq, Prod.mk.injEq] at h
            obtain ⟨hd, -, hb₁⟩ := h
            refine ⟨fun hcontra => ?_, fun _ _ ds => ?_⟩
            · rcases hcontra with h₁ | h₁
              · exact absurd hrw h₁
              · exact absurd hlen h₁
            · rw [← hb₁]
              rw [← hd] at hne ⊢
              have hpos : 0 < ((srcRead b.rd plen).1.1).length := List.length_pos.mpr hne
              rw [if_pos hpos]
              rfl
          · rw [if_neg hlen] at h
            split at h
            · simp only [Option.some.injEq, Prod.mk.injEq] at h
              exact absurd h.1.symm hne
            · exact ⟨fun _ ds => Reader.copyStep_deref h hne ds,
                fun _ hcontra => absurd hcontra hlen⟩
      · rw [if_neg hrw] at h
        exact ⟨fun _ ds => Reader.copyStep_deref h hne ds,
          fun hcontra _ => absurd hcontra hrw⟩

/-- Concrete state for C3: an empty capacity-16 reader over a source that
delivers the single element `7`; a destination of length 16 triggers the
direct zero-copy path. -/
def c3State : Reader Nat :=
  { buf := List.replicate 16 0, rd := [([7], none)], r := 0, w := 0,
    err := none, lastElem := Last.invalid }

/-- The reader after `Read c3State 16` returned `[7]`: the last-element
pointer aliases slot 0 of the caller's destination slice. -/
def c3StateAfter : Reader Nat :=
  { buf := List.replicate 16 0, rd := [], r := 0, w := 0,
    err := none, lastElem := Last.destIdx 0 }

/-- C3 counterexample: the direct-path `Read` returns `[7]`, but after the
caller overwrites slot 0 of its destination slice with `99`, `UnreadElem`
pushes back `99` and the next `ReadElem` returns `99`, not the value `7`
that was returned — the last-element slot is not a copy decoupled from the
caller's destination slice. -/
theorem lastElem_aliasing_counterexample :
    Reader.Read c3State 16 = some ([7], none, c3StateAfter) ∧
    ((Reader.UnreadElem c3StateAfter [99]).bind fun p =>
      (Reader.ReadElem p.2).map fun q => (p.1, q.1, q.2.1)) = some (none, 99, none) :=
  ⟨rfl, rfl⟩

/-- C3 witness: at the concrete direct-path state, dereferencing the
last-element pointer yields whatever the caller's slice currently holds
(`99` after mutation, `7` when unchanged), and after a `ReadElem` on a
fresh reader the slot holds a genuine copy of the returned element. -/
theorem lastElem_semantics_witness :
    Reader.derefLast c3StateAfter.lastElem c3StateAfter.buf [99] = some 99 ∧
    Reader.derefLast c3StateAfter.lastElem c3StateAfter.buf [7] = some 7 ∧
    Reader.derefLast c2StateAfter.lastElem [] [] = some 3 := by
  refine ⟨?_, ?_, ?_⟩
  · have h := ((lastElem_semantics c3State).2 16 [7] none c3StateAfter rfl
      (by simp)).2 rfl (by decide) [99]
    simpa using h
  · have h := ((lastElem_semantics c3State).2 16 [7] none c3StateAfter rfl
      (by simp)).2 rfl (by decide) [7]
    simpa using h
  · exact (lastElem_semantics c2State).1 3 c2StateAfter rfl [] []

end Bufiog

namespace Bufiog

namespace Reader

/-- The retry loop of `fill` never touches the last-element pointer. -/
theorem fillLoop_lastElem {T : Type} (i : Nat) (b : Reader T) :
    (fillLoop b i).lastElem = b.lastElem := by
  induction i generalizing b with
  | zero => rfl
  | succ k ih =>
    simp only [fillLoop]
    split
    · rfl
    · split
      · rfl
      · exact ih _

/-- `fill` never touches the last-element pointer. -/
theorem fill_lastElem {T : Type} (b b₁ : Reader T) (h : fill b = some b₁) :
    b₁.lastElem = b.lastElem := by
  simp only [fill] at h
  split at h
  · cases h
  · split at h
    · cases h
    · rw [← Option.some.inj h, fillLoop_lastElem, slide_lastElem]

/-- The fill loop of `Peek` never touches the last-element pointer. -/
theorem peekLoop_lastElem {T : Type} (n fuel : Nat) (b b₁ : Reader T)
    (h : peekLoop b n fuel = some b₁) : b₁.lastElem = b.lastElem := by
  induction fuel generalizing b with
  | zero => cases h
  | succ k ih =>
    rw [peekLoop] at h
    split at h
    · split at h
      · cases h
      · next b₂ hf => rw [ih _ h, fill_lastElem _ _ hf]
    · rw [← Option.some.inj h]

/-- The loop of `Discard` never touches the last-element pointer. -/
theorem discardLoop_lastElem {T : Type} (n remain fuel : Nat) (b : Reader T)
    (k : Nat) (e : Option Err) (b₁ : Reader T)
    (h : discardLoop b n remain fuel = some (k, e, b₁)) : b₁.lastElem = b.lastElem := by
  induction fuel generalizing b remain with
  | zero => cases h
  | succ f ih =>
    simp only [discardLoop] at h
    split at h
    · cases h
    · next b₂ hb₂ =>
      have hb₂l : b₂.lastElem = b.lastElem := by
        by_cases hbuf : b.Buffered = 0
        · rw [if_pos hbuf] at hb₂
          exact fill_lastElem _ _ hb₂
        · rw [if_neg hbuf] at hb₂
          rw [← Option.some.inj hb₂]
      split at h
      · simp only [Option.some.injEq, Prod.mk.injEq] at h
        rw [← h.2.2]
        exact hb₂l
      · split at h
        · simp only [Option.some.injEq, Prod.mk.injEq] at h
          rw [← h.2.2]
          exact hb₂l
        · rw [ih _ _ h]
          exact hb₂l

/-- `writeBuf` never touches the last-element pointer. -/
theorem writeBuf_lastElem {T : Type} (b : Reader T) (s : Snk) (m : Nat) (e : Option Err)
    (b₁ : Reader T) (s₁ : Snk) (h : writeBuf b s = some (m, e, b₁, s₁)) :
    b₁.lastElem = b.lastElem := by
  simp only [writeBuf] at h
  split at h
  · cases h
  · simp only [Option.some.injEq, Prod.mk.injEq] at h
    rw [← h.2.2.1]

/-- The flush-then-fill loop of `WriteTo` never touches the last-element
pointer. -/
theorem writeToLoop_lastElem {T : Type} (fuel : Nat) (b : Reader T) (s : Snk) (acc : Nat)
    (m : Nat) (e : Option Err) (b₁ : Reader T) (s₁ : Snk)
    (h : writeToLoop b s acc fuel = some (m, e, b₁, s₁)) : b₁.lastElem = b.lastElem := by
  induction fuel generalizing b s acc with
  | zero => cases h
  | succ f ih =>
    rw [writeToLoop] at h
    split at h
    · split at h
      · cases h
      · next m₂ e₂ b₂ s₂ hwb =>
        split at h
        · simp only [Option.some.injEq, Prod.mk.injEq] at h
          rw [← h.2.2.1]
          exact writeBuf_lastElem _ _ _ _ _ _ hwb
        · split at h
          · cases h
          · next b₃ hf =>
            rw [ih _ _ _ h, fill_lastElem _ _ hf, writeBuf_lastElem _ _ _ _ _ _ hwb]
    · simp only [Option.some.injEq, Prod.mk.injEq] at h
      rw [← h.2.2.1]

/-- A successful `UnreadElem` clears the last-element pointer. -/
theorem unreadElem_success_lastElem {T : Type} [DecidableEq T] (b : Reader T) (dest : List T)
    (b₁ : Reader T) (h : UnreadElem b dest = some (none, b₁)) :
    b₁.lastElem = Last.invalid := by
  by_cases hc : (b.lastElem = Last.invalid ∨ (b.r = 0 ∧ 0 < b.w))
  · rw [UnreadElem, if_pos hc] at h
    simp at h
  · rcases unreadElem_not_fail b dest hc with hn | ⟨b₂, hs, hinv⟩
    · rw [hn] at h; cases h
    · rw [hs] at h
      simp only [Option.some.injEq, Prod.mk.injEq] at h
      exact h.2 ▸ hinv

end Reader

/-- C4 (amended): the last-element slot is invalidated by every `Peek`
with a nonnegative argument, every `Discard` with a positive argument,
every `WriteTo`, and every successful `UnreadElem`; `Discard 0` returns
with the reader unchanged (so a valid slot survives it) and `fill` leaves
the slot untouched. -/
theorem lastElem_invalidation {T : Type} [Inhabited T] [DecidableEq T]
    (b : Reader T) (n : Int) (dest : List T) (s : Snk) :
    (∀ d e b₁, 0 ≤ n → Reader.Peek b n = some (d, e, b₁) → b₁.lastElem = Last.invalid) ∧
    (∀ k e b₁, 0 < n → Reader.Discard b n = some (k, e, b₁) → b₁.lastElem = Last.invalid) ∧
    (∀ m e b₁ s₁, Reader.WriteTo b s = some (m, e, b₁, s₁) → b₁.lastElem = Last.invalid) ∧
    (∀ b₁, Reader.UnreadElem b dest = some (none, b₁) → b₁.lastElem = Last.invalid) ∧
    Reader.Discard b 0 = some (0, none, b) ∧
    (∀ b₁, Reader.fill b = some b₁ → b₁.lastElem = b.lastElem) := by
  refine ⟨?_, ?_, ?_, ?_, ?_, ?_⟩
  · intro d e b₁ h0 h
    have hn0 : ¬ n < 0 := Int.not_lt.mpr h0
    simp only [Reader.Peek, hn0, if_false] at h
    split at h
    · cases h
    · next b₂ hpl =>
      have hb₂ : b₂.lastElem = Last.invalid := Reader.peekLoop_lastElem _ _ _ _ hpl
      split at h
      · cases h
      · split at h
        · simp only [Option.some.injEq, Prod.mk.injEq] at h
          rw [← h.2.2]
          exact hb₂
        · split at h <;>
          · simp only [Option.some.injEq, Prod.mk.injEq] at h
            rw [← h.2.2]
            exact hb₂
  · intro k e b₁ h0 h
    have hn0 : ¬ n < 0 := Int.not_lt.mpr (Int.le_of_lt h0)
    have hne : ¬ n = 0 := by omega
    rw [Reader.Discard, if_neg hn0, if_neg hne] at h
    rw [Reader.discardLoop_lastElem _ _ _ _ _ _ _ h]
  · intro m e b₁ s₁ h
    simp only [Reader.WriteTo] at h
    split at h
    · cases h
    · next m₂ e₂ b₂ s₂ hwb =>
      have hb₂ : b₂.lastElem = Last.invalid := Reader.writeBuf_lastElem _ _ _ _ _ _ hwb
      split at h
      · simp only [Option.some.injEq, Prod.mk.injEq] at h
        rw [← h.2.2.1]
        exact hb₂
      · split at h
        · cases h
        · next b₃ hstep =>
          have hb₃ : b₃.lastElem = Last.invalid := by
            by_cases hfull : b₂.w - b₂.r < b₂.buf.length
            · rw [if_pos hfull] at hstep
              rw [Reader.fill_lastElem _ _ hstep]
              exact hb₂
            · rw [if_neg hfull] at hstep
              rw [← Option.some.inj hstep]
              exact hb₂
          split at h
          · cases h
          · next m₃ e₃ b₄ s₄ hloop =>
            have hb₄ : b₄.lastElem = Last.invalid := by
              rw [Reader.writeToLoop_lastElem _ _ _ _ _ _ _ _ hloop]
              exact hb₃
            split at h
            · simp only [Option.some.injEq, Prod.mk.injEq] at h
              rw [← h.2.2.1]
              exact hb₄
            · simp only [Option.some.injEq, Prod.mk.injEq] at h
              rw [← h.2.2.1]
              split <;> exact hb₄
  · intro b₁ h
    exact Reader.unreadElem_success_lastElem b dest b₁ h
  · rw [Reader.Discard, if_neg (lt_irrefl 0), if_pos rfl]
  · intro b₁ h
    exact Reader.fill_lastElem b b₁ h

/-- Concrete state for the C4 counterexample: empty buffer, a remembered
element `5`, and a source with one element pending. -/
def c4State : Reader Nat :=
  { buf := List.replicate 16 0, rd := [([1], none)], r := 0, w := 0,
    err := none, lastElem := Last.copied 5 }

/-- C4 counterexample: `Discard 0` returns without invalidating the
last-element slot, and `fill` preserves it as well — contradicting the
claim that every discard (including `Discard(0)`) and every fill
invalidate it. -/
theorem lastElem_invalidation_counterexample :
    Reader.Discard c4State 0 = some (0, none, c4State) ∧
    c4State.lastElem = Last.copied 5 ∧
    (Reader.fill c4State).map Reader.lastElem = some (Last.copied 5) :=
  ⟨rfl, rfl, rfl⟩

/-- Concrete source state for the C4 witness: buffered `[1,2]` with a
remembered element `9`. -/
def c4PW : Reader Nat :=
  { buf := [1, 2], rd := [], r := 0, w := 2, err := none, lastElem := Last.copied 9 }

/-- Reader after `Peek c4PW 1`. -/
def c4PeekRes : Reader Nat :=
  { buf := [1, 2], rd := [], r := 0, w := 2, err := none, lastElem := Last.invalid }

/-- Reader after `Discard c4PW 1`. -/
def c4DiscardRes : Reader Nat :=
  { buf := [1, 2], rd := [], r := 1, w := 2, err := none, lastElem := Last.invalid }

/-- Reader after `WriteTo c4PW []`. -/
def c4WriteToRes : Reader Nat :=
  { buf := [1, 2], rd := [], r := 0, w := 0, err := none, lastElem := Last.invalid }

/-- Reader after `UnreadElem c2StateAfter []`. -/
def c4UnreadRes : Reader Nat :=
  { buf := [3, 4, 0], rd := [], r := 0, w := 2, err := none, lastElem := Last.invalid }

/-- C4 witness: at the concrete states, peek, positive discard, bulk
transfer and successful unread all leave the slot invalid, and `Discard 0`
leaves the reader unchanged. -/
theorem lastElem_invalidation_witness :
    c4PeekRes.lastElem = Last.invalid ∧
    c4DiscardRes.lastElem = Last.invalid ∧
    c4WriteToRes.lastElem = Last.invalid ∧
    c4UnreadRes.lastElem = Last.invalid ∧
    Reader.Discard c4PW 0 = some (0, none, c4PW) :=
  ⟨(lastElem_invalidation c4PW 1 [] []).1 [1] none c4PeekRes (by norm_num) rfl,
   (lastElem_invalidation c4PW 1 [] []).2.1 1 none c4DiscardRes (by norm_num) rfl,
   (lastElem_invalidation c4PW 1 [] []).2.2.1 2 none c4WriteToRes [] rfl,
   (lastElem_invalidation c2StateAfter 1 [] []).2.2.2.1 c4UnreadRes rfl,
   (lastElem_invalidation c4PW 1 [] []).2.2.2.2.1⟩

end Bufiog

namespace Bufiog

/-- The source script after one call is the tail of the script. -/
theorem srcRead_snd {T : Type} (s : Src T) (k : Nat) : (srcRead s k).2 = s.drop 1 := by
  cases s with
  | nil => rfl
  | cons hd tl => cases hd; rfl

/-- C6: a single `Read` pops at most one response from the source script
(exactly Go's "at most one source read per call"), and whenever at least
one element was copied out of the buffer (every non-empty result except
the direct zero-copy path), the returned error is nil — a short read is
not an error. -/
theorem read_at_most_one_source_call {T : Type} [Inhabited T] (b : Reader T) (plen : Nat)
    (d : List T) (e : Option Err) (b₁ : Reader T)
    (h : Reader.Read b plen = some (d, e, b₁)) :
    (b₁.rd = b.rd ∨ b₁.rd = b.rd.drop 1) ∧
    (d ≠ [] → ¬ (b.r = b.w ∧ b.buf.length ≤ plen) → e = none) := by
  by_cases hp : plen = 0
  · subst hp
    rw [Reader.Read, if_pos rfl] at h
    split at h <;>
      · simp only [Option.some.injEq, Prod.mk.injEq] at h
        exact ⟨Or.inl (by rw [← h.2.2]), fun hne _ => absurd h.1.symm hne⟩
  · rw [Reader.Read, if_neg hp] at h
    by_cases hrw : b.r = b.w
    · rw [if_pos hrw] at h
      by_cases herr : b.err.isSome
      · rw [if_pos herr] at h
        simp only [Option.some.injEq, Prod.mk.injEq] at h
        exact ⟨Or.inl (by rw [← h.2.2]), fun hne _ => absurd h.1.symm hne⟩
      · rw [if_neg herr] at h
        by_cases hlen : b.buf.length ≤ plen
        · rw [if_pos hlen] at h
          simp only [Option.some.injEq, Prod.mk.injEq] at h
          refine ⟨Or.inr ?_, fun _ hcontra => absurd ⟨hrw, hlen⟩ hcontra⟩
          rw [← h.2.2, ← srcRead_snd b.rd plen]
        · rw [if_neg hlen] at h
          split at h
          · simp only [Option.some.injEq, Prod.mk.injEq] at h
            exact ⟨Or.inr (by rw [← h.2.2, ← srcRead_snd b.rd b.buf.length]),
              fun hne _ => absurd h.1.symm hne⟩
          · obtain ⟨-, -, -, he, hb₁⟩ := Reader.copyStep_some h
            refine ⟨Or.inr ?_, fun _ _ => he⟩
            rw [hb₁, ← srcRead_snd b.rd b.buf.length]
    · rw [if_neg hrw] at h
      obtain ⟨-, -, -, he, hb₁⟩ := Reader.copyStep_some h
      exact ⟨Or.inl (by rw [hb₁]), fun _ _ => he⟩

/-- Reader after `Read c2State 1`. -/
def c6Res : Reader Nat :=
  { buf := [3, 4, 0], rd := [], r := 1, w := 2, err := none, lastElem := Last.bufIdx 0 }

/-- C6 witness: the concrete buffered read pops no source response and
returns no error. -/
theorem read_at_most_one_source_call_witness :
    (c6Res.rd = c2State.rd ∨ c6Res.rd = c2State.rd.drop 1) ∧
    ([3] ≠ ([] : List Nat) → ¬ (c2State.r = c2State.w ∧ c2State.buf.length ≤ 1) →
      (none : Option Err) = none) :=
  read_at_most_one_source_call c2State 1 [3] none c6Res rfl

/-- C9: construction with a plain source clamps the requested size up to
the minimum (never down: a request of at least the minimum is honoured
exactly), and construction on a source that is already a reader with a
large enough buffer returns that very reader unchanged. -/
theorem newReaderSize_clamp {T : Type} [Inhabited T] (rd : Src T) (size : Int)
    (b : Reader T) :
    (size < (minReadBufferSize : Int) →
      (NewReaderSize rd size).Size = minReadBufferSize) ∧
    ((minReadBufferSize : Int) ≤ size →
      ((NewReaderSize rd size).Size : Int) = size) ∧
    (size ≤ (b.buf.length : Int) → newReaderSizeOnReader b size = some b) := by
  refine ⟨?_, ?_, ?_⟩
  · intro hlt
    rw [NewReaderSize]
    simp only [if_pos hlt, Reader.Size, List.length_replicate]
    rfl
  · intro hge
    rw [NewReaderSize]
    simp only [if_neg (Int.not_lt.mpr hge), Reader.Size, List.length_replicate]
    exact Int.toNat_of_nonneg (le_trans (by norm_num [minReadBufferSize]) hge)
  · intro hle
    rw [newReaderSizeOnReader, if_pos hle]

/-- C9 witness: a request of 5 yields capacity 16 (the minimum), a request
of 20 yields capacity 20, and constructing over the reader `c2State`
(capacity 3) with request 3 returns `c2State` itself. -/
theorem newReaderSize_clamp_witness :
    (NewReaderSize ([] : Src Nat) 5).Size = minReadBufferSize ∧
    ((NewReaderSize ([] : Src Nat) 20).Size : Int) = 20 ∧
    newReaderSizeOnReader c2State 3 = some c2State :=
  ⟨(newReaderSize_clamp ([] : Src Nat) 5 c2State).1 (by norm_num [minReadBufferSize]),
   (newReaderSize_clamp ([] : Src Nat) 20 c2State).2.1 (by norm_num [minReadBufferSize]),
   (newReaderSize_clamp ([] : Src Nat) 3 c2State).2.2 (by norm_num [c2State])⟩

namespace Reader

/-- `slide` on an empty valid region just zeroes both cursors. -/
theorem slide_empty {T : Type} (b : Reader T) (hempty : b.r = b.w) :
    b.slide = { b with r := 0, w := 0 } := by
  obtain ⟨buf, rd, r, w, err, le⟩ := b
  simp only at hempty
  subst hempty
  simp only [slide, validRegion]
  split
  · simp [writeAt_nil]
  · next hr => simp at hr; simp [hr]

/-- One `fillLoop` step on a script whose head is an error response:
the clamped data is appended and the error recorded. -/
theorem fillLoop_cons_error {T : Type} (i : Nat) (b : Reader T) (c : List T) (e : Err)
    (rest : Src T) (hrd : b.rd = (c, some e) :: rest) :
    fillLoop b (i + 1) =
      { b with rd := rest, buf := writeAt b.buf b.w (c.take (b.buf.length - b.w)),
               w := b.w + (c.take (b.buf.length - b.w)).length, err := some e } := by
  simp only [fillLoop, fillStep, hrd, srcRead]

/-- `fill` on an empty valid region whose source immediately answers
`(0, error)`: one source call, cursors zeroed, the error recorded —
overwriting whatever error was pending before. -/
theorem fill_empty_error {T : Type} (b : Reader T) (e₂ : Err) (rest : Src T)
    (hempty : b.r = b.w) (hwl : b.w ≤ b.buf.length) (hpos : 0 < b.buf.length)
    (hrd : b.rd = ([], some e₂) :: rest) :
    fill b = some { b with r := 0, w := 0, rd := rest, err := some e₂ } := by
  have hs := slide_empty b hempty
  simp only [fill, hs]
  rw [if_neg (by omega : ¬ (b.w < b.r ∨ b.buf.length < b.w))]
  rw [if_neg (by omega : ¬ b.buf.length ≤ 0)]
  rw [show maxConsecutiveEmptyReads = 99 + 1 from rfl]
  rw [fillLoop_cons_error 99 ({ b with r := 0, w := 0 } : Reader T) [] e₂ rest hrd]
  simp [writeAt_nil]

end Reader

/-- C10: with an empty buffer and a pending error, a positive `Discard`
still performs a source call through `fill` before surfacing an error —
and if that call itself errors, the new error overwrites the pending one,
which is never returned to any caller (the discard returns the new error
and clears the slot) — whereas `Read` and `ReadElem` return the pending
error without touching the source. -/
theorem discard_fills_despite_pending_error {T : Type} [Inhabited T] (b : Reader T)
    (e e₂ : Err) (rest : Src T) (n : Int) (plen : Nat)
    (hempty : b.r = b.w) (hwl : b.w ≤ b.buf.length) (hpos : 0 < b.buf.length)
    (herr : b.err = some e) (hrd : b.rd = ([], some e₂) :: rest)
    (hn : 0 < n) (hplen : plen ≠ 0) :
    Reader.Discard b n = some (0, some e₂,
      { b with lastElem := Last.invalid, r := 0, w := 0, rd := rest, err := none }) ∧
    Reader.Read b plen = some ([], some e, { b with err := none }) ∧
    Reader.ReadElem b = some (default, some e, { b with err := none }) := by
  refine ⟨?_, ?_, ?_⟩
  · rw [Reader.Discard, if_neg (by omega), if_neg (by omega)]
    have hfill : Reader.fill { b with lastElem := Last.invalid } = some
        { b with lastElem := Last.invalid, r := 0, w := 0, rd := rest, err := some e₂ } :=
      Reader.fill_empty_error _ e₂ rest hempty hwl hpos hrd
    obtain ⟨k, hk⟩ : ∃ k, n.toNat = k + 1 :=
      ⟨n.toNat - 1, by omega⟩
    rw [hk]
    simp only [Reader.discardLoop]
    rw [if_pos (by simp only [Reader.Buffered]; omega)]
    rw [hfill]
    simp [Reader.Buffered, hk]
  · rw [Reader.Read, if_neg hplen, if_pos hempty, if_pos (by rw [herr]; rfl), herr]
  · rw [Reader.ReadElem, Reader.readElemLoop, if_pos hempty, herr]

/-- Concrete state for the C10 witness: empty buffer, pending error with
code 9, and a source whose next call answers `(0, error 3)`. -/
def c10State : Reader Nat :=
  { buf := List.replicate 16 0, rd := [([], some (Err.srcErr 3))], r := 0, w := 0,
    err := some (Err.srcErr 9), lastElem := Last.invalid }

/-- C10 witness: on the concrete state, `Discard 1` consumes the source
response and returns the new error 3 (the pending error 9 is gone for
good), while `Read` and `ReadElem` return the pending error 9 with the
source script untouched. -/
theorem discard_fills_despite_pending_error_witness :
    Reader.Discard c10State 1 = some (0, some (Err.srcErr 3),
      { c10State with lastElem := Last.invalid, r := 0, w := 0, rd := [], err := none }) ∧
    Reader.Read c10State 1 = some ([], some (Err.srcErr 9), { c10State with err := none }) ∧
    Reader.ReadElem c10State = some (0, some (Err.srcErr 9), { c10State with err := none }) :=
  discard_fills_despite_pending_error c10State (Err.srcErr 9) (Err.srcErr 3) [] 1 1
    rfl (by decide) (by decide) rfl rfl (by norm_num) (by norm_num)

end Bufiog


namespace Bufiog

/-- The data delivered by one source call is no longer than the slice
handed to the source. -/
theorem srcRead_fst_length {T : Type} (s : Src T) (k : Nat) :
    ((srcRead s k).1.1).length ≤ k := by
  cases s with
  | nil => simp [srcRead]
  | cons hd tl =>
    cases hd
    simp only [srcRead, List.length_take]
    exact Nat.min_le_left _ _

/-- The count reported by one sink call is no larger than the slice
written. -/
theorem snkWrite_fst_le (s : Snk) (k : Nat) : (snkWrite s k).1.1 ≤ k := by
  cases s with
  | nil => simp [snkWrite]
  | cons hd tl =>
    cases hd
    simp only [snkWrite]
    exact Nat.min_le_right _ _

namespace Reader

/-- Cursor and buffer facts about one step of the `fill` retry loop. -/
theorem fillStep_facts {T : Type} (b : Reader T) (hwl : b.w ≤ b.buf.length) :
    b.fillStep.r = b.r ∧ b.w ≤ b.fillStep.w ∧ b.fillStep.w ≤ b.fillStep.buf.length ∧
      b.fillStep.buf.length = b.buf.length := by
  have hcl : ((srcRead b.rd (b.buf.length - b.w)).1.1).length ≤ b.buf.length - b.w :=
    srcRead_fst_length _ _
  have hlen : b.fillStep.buf.length = b.buf.length :=
    length_writeAt _ _ _ (by omega)
  exact ⟨rfl, Nat.le_add_right _ _, by rw [hlen]; show b.w + _ ≤ _; omega, hlen⟩

/-- State facts preserved and established by the retry loop of `fill`:
the read cursor and buffer length are unchanged, and the write cursor only
grows, staying within the buffer. -/
theorem fillLoop_state {T : Type} (i : Nat) (b : Reader T) (hwl : b.w ≤ b.buf.length) :
    (fillLoop b i).r = b.r ∧ b.w ≤ (fillLoop b i).w ∧
      (fillLoop b i).w ≤ (fillLoop b i).buf.length ∧
      (fillLoop b i).buf.length = b.buf.length := by
  induction i generalizing b with
  | zero => exact ⟨rfl, Nat.le_refl _, hwl, rfl⟩
  | succ k ih =>
    obtain ⟨f₁, f₂, f₃, f₄⟩ := fillStep_facts b hwl
    simp only [fillLoop]
    split
    · exact ⟨f₁, f₂, f₃, f₄⟩
    · split
      · exact ⟨f₁, f₂, f₃, f₄⟩
      · obtain ⟨h₁, h₂, h₃, h₄⟩ := ih b.fillStep f₃
        exact ⟨h₁.trans f₁, f₂.trans h₂, h₃, h₄.trans f₄⟩

/-- The retry loop of `fill` ends with an error recorded or with the write
cursor strictly advanced. -/
theorem fillLoop_progress_or_error {T : Type} (i : Nat) (b : Reader T) :
    (fillLoop b i).err.isSome ∨ b.w < (fillLoop b i).w := by
  induction i generalizing b with
  | zero => exact Or.inl rfl
  | succ k ih =>
    simp only [fillLoop]
    split
    · exact Or.inl rfl
    · split
      · next hpos =>
        exact Or.inr (show b.w < b.w + _ by omega)
      · rcases ih b.fillStep with h | h
        · exact Or.inl h
        · exact Or.inr (Nat.lt_of_le_of_lt (Nat.le_add_right b.w _) h)

/-- Everything `fill` guarantees when it returns (does not panic): the
read cursor is zeroed, the buffer length is unchanged, the cursors are
well formed, the buffered count has not shrunk, and either an error is
recorded or the buffered count strictly grew. -/
theorem fill_spec {T : Type} (b b₁ : Reader T) (h : fill b = some b₁) :
    b₁.r = 0 ∧ b₁.buf.length = b.buf.length ∧ b₁.w ≤ b₁.buf.length ∧
      b.w - b.r ≤ b₁.w ∧ (b₁.err.isSome ∨ b.w - b.r < b₁.w) := by
  rw [fill] at h
  split at h
  · cases h
  · next hg =>
    push_neg at hg
    split at h
    · cases h
    · next hfull =>
      have hb₁ : b₁ = fillLoop b.slide maxConsecutiveEmptyReads := (Option.some.inj h).symm
      have hswl : b.slide.w ≤ b.slide.buf.length := Nat.le_of_lt (Nat.lt_of_not_le hfull)
      obtain ⟨h₁, h₂, h₃, h₄⟩ := fillLoop_state maxConsecutiveEmptyReads b.slide hswl
      have hpe := fillLoop_progress_or_error maxConsecutiveEmptyReads b.slide
      rw [slide_r] at h₁
      rw [slide_buf_length b hg.1 hg.2] at h₄
      rw [slide_w] at h₂ hpe
      rw [hb₁]
      exact ⟨h₁, h₄, h₃, h₂, hpe⟩

/-- `fill` returns (does not panic) from every well-formed state whose
buffered region is smaller than the buffer. -/
theorem fill_total {T : Type} (b : Reader T) (hwf : Wf b)
    (hfree : b.w - b.r < b.buf.length) : ∃ b₁, fill b = some b₁ := by
  obtain ⟨hrw, hwl⟩ := hwf
  rw [fill]
  rw [if_neg (by omega : ¬ (b.w < b.r ∨ b.buf.length < b.w))]
  rw [if_neg (by rw [slide_w, slide_buf_length b hrw hwl]; omega)]
  exact ⟨_, rfl⟩

end Reader

end Bufiog

namespace Bufiog

/-- Unfolding of `Wf`. -/
theorem wf_iff {T : Type} (b : Reader T) : Wf b ↔ b.r ≤ b.w ∧ b.w ≤ b.buf.length := Iff.rfl

namespace Reader

/-- `fill` leaves a well-formed state with the same capacity. -/
theorem fill_wf {T : Type} (b b₁ : Reader T) (h : fill b = some b₁) :
    Wf b₁ ∧ b₁.buf.length = b.buf.length := by
  obtain ⟨h₁, h₂, h₃, -, -⟩ := fill_spec b b₁ h
  exact ⟨⟨by rw [h₁]; exact Nat.zero_le _, h₃⟩, h₂⟩

/-- `copyStep` leaves a well-formed state with the same capacity. -/
theorem copyStep_wf {T : Type} {b : Reader T} {plen : Nat} {d : List T} {e : Option Err}
    {b₁ : Reader T} (h : copyStep b plen = some (d, e, b₁)) :
    Wf b₁ ∧ b₁.buf.length = b.buf.length := by
  obtain ⟨hrw, hwl, hd, -, hb₁⟩ := copyStep_some h
  have hdl : d.length ≤ b.w - b.r := by
    rw [hd]
    simp only [List.length_take, validRegion, List.length_drop]
    omega
  rw [hb₁]
  exact ⟨⟨by show b.r + d.length ≤ b.w; omega, hwl⟩, rfl⟩

/-- `Read` leaves a well-formed state with the same capacity. -/
theorem read_wf {T : Type} [Inhabited T] (b : Reader T) (plen : Nat) (d : List T)
    (e : Option Err) (b₁ : Reader T) (h : Read b plen = some (d, e, b₁)) (hwf : Wf b) :
    Wf b₁ ∧ b₁.buf.length = b.buf.length := by
  by_cases hp : plen = 0
  · subst hp
    rw [Read, if_pos rfl] at h
    split at h <;>
      · simp only [Option.some.injEq, Prod.mk.injEq] at h
        rw [← h.2.2]
        exact ⟨hwf, rfl⟩
  · rw [Read, if_neg hp] at h
    by_cases hrw : b.r = b.w
    · rw [if_pos hrw] at h
      by_cases herr : b.err.isSome
      · rw [if_pos herr] at h
        simp only [Option.some.injEq, Prod.mk.injEq] at h
        rw [← h.2.2]
        exact ⟨hwf, rfl⟩
      · rw [if_neg herr] at h
        by_cases hlen : b.buf.length ≤ plen
        · rw [if_pos hlen] at h
          simp only [Option.some.injEq, Prod.mk.injEq] at h
          rw [← h.2.2]
          exact ⟨hwf, rfl⟩
        · rw [if_neg hlen] at h
          have hcl : ((srcRead b.rd b.buf.length).1.1).length ≤ b.buf.length :=
            srcRead_fst_length _ _
          have hblen : (writeAt b.buf 0 (srcRead b.rd b.buf.length).1.1).length =
              b.buf.length := length_writeAt _ _ _ (by omega)
          split at h
          · simp only [Option.some.injEq, Prod.mk.injEq] at h
            rw [← h.2.2]
            exact ⟨⟨Nat.le_refl 0, Nat.zero_le _⟩, hblen⟩
          · obtain ⟨hwf₁, hlen₁⟩ := copyStep_wf h
            exact ⟨hwf₁, by rw [hlen₁]; exact hblen⟩
    · rw [if_neg hrw] at h
      exact copyStep_wf h
  
/-- `readElemLoop` leaves a well-formed state with the same capacity. -/
theorem readElemLoop_wf {T : Type} [Inhabited T] (fuel : Nat) (b : Reader T) (x : T)
    (e : Option Err) (b₁ : Reader T) (h : readElemLoop b fuel = some (x, e, b₁))
    (hwf : Wf b) : Wf b₁ ∧ b₁.buf.length = b.buf.length := by
  induction fuel generalizing b with
  | zero => cases h
  | succ k ih =>
    by_cases hrw : b.r = b.w
    · rw [readElemLoop, if_pos hrw] at h
      split at h
      · simp only [Option.some.injEq, Prod.mk.injEq] at h
        rw [← h.2.2]
        exact ⟨hwf, rfl⟩
      · split at h
        · cases h
        · next b₂ hf =>
          obtain ⟨hwf₂, hlen₂⟩ := fill_wf _ _ hf
          obtain ⟨hwf₁, hlen₁⟩ := ih b₂ h hwf₂
          exact ⟨hwf₁, hlen₁.trans hlen₂⟩
    · rw [readElemLoop, if_neg hrw] at h
      split at h
      · cases h
      · next c hc =>
        simp only [Option.some.injEq, Prod.mk.injEq] at h
        rw [← h.2.2]
        refine ⟨⟨?_, hwf.2⟩, rfl⟩
        show b.r + 1 ≤ b.w
        have h₁ := hwf.1
        omega

/-- `ReadElem` leaves a well-formed state with the same capacity. -/
theorem readElem_wf {T : Type} [Inhabited T] (b : Reader T) (x : T) (e : Option Err)
    (b₁ : Reader T) (h : ReadElem b = some (x, e, b₁)) (hwf : Wf b) :
    Wf b₁ ∧ b₁.buf.length = b.buf.length :=
  readElemLoop_wf 2 b x e b₁ h hwf

/-- The fill loop of `Peek` leaves a well-formed state with the same
capacity. -/
theorem peekLoop_wf {T : Type} (n fuel : Nat) (b b₁ : Reader T)
    (h : peekLoop b n fuel = some b₁) (hwf : Wf b) :
    Wf b₁ ∧ b₁.buf.length = b.buf.length := by
  induction fuel generalizing b with
  | zero => cases h
  | succ k ih =>
    rw [peekLoop] at h
    split at h
    · split at h
      · cases h
      · next b₂ hf =>
        obtain ⟨hwf₂, hlen₂⟩ := fill_wf _ _ hf
        obtain ⟨hwf₁, hlen₁⟩ := ih b₂ h hwf₂
        exact ⟨hwf₁, hlen₁.trans hlen₂⟩
    · rw [← Option.some.inj h]
      exact ⟨hwf, rfl⟩

/-- `Peek` leaves a well-formed state with the same capacity. -/
theorem peek_wf {T : Type} (b : Reader T) (n : Int) (d : List T) (e : Option Err)
    (b₁ : Reader T) (h : Peek b n = some (d, e, b₁)) (hwf : Wf b) :
    Wf b₁ ∧ b₁.buf.length = b.buf.length := by
  simp only [Peek] at h
  split at h
  · simp only [Option.some.injEq, Prod.mk.injEq] at h
    rw [← h.2.2]
    exact ⟨hwf, rfl⟩
  · split at h
    · cases h
    · next b₂ hpl =>
      obtain ⟨hwf₂, hlen₂⟩ := peekLoop_wf _ _ _ _ hpl
        (by exact ⟨hwf.1, hwf.2⟩)
      split at h
      · cases h
      · split at h
        · simp only [Option.some.injEq, Prod.mk.injEq] at h
          rw [← h.2.2]
          exact ⟨hwf₂, hlen₂⟩
        · split at h <;>
          · simp only [Option.some.injEq, Prod.mk.injEq] at h
            rw [← h.2.2]
            exact ⟨⟨hwf₂.1, hwf₂.2⟩, hlen₂⟩

/-- The loop of `Discard` leaves a well-formed state with the same
capacity. -/
theorem discardLoop_wf {T : Type} (n remain fuel : Nat) (b : Reader T)
    (k : Nat) (e : Option Err) (b₁ : Reader T)
    (h : discardLoop b n remain fuel = some (k, e, b₁)) (hwf : Wf b) :
    Wf b₁ ∧ b₁.buf.length = b.buf.length := by
  induction fuel generalizing b remain with
  | zero => cases h
  | succ f ih =>
    simp only [discardLoop] at h
    split at h
    · cases h
    · next b₂ hb₂ =>
      have hfacts : Wf b₂ ∧ b₂.buf.length = b.buf.length := by
        by_cases hbuf : b.Buffered = 0
        · rw [if_pos hbuf] at hb₂
          exact fill_wf _ _ hb₂
        · rw [if_neg hbuf] at hb₂
          rw [← Option.some.inj hb₂]
          exact ⟨hwf, rfl⟩
      obtain ⟨hwf₂, hlen₂⟩ := hfacts
      have hwf₃ : Wf ({ b₂ with r := b₂.r + min b₂.Buffered remain } : Reader T) := by
        refine ⟨?_, hwf₂.2⟩
        show b₂.r + min b₂.Buffered remain ≤ b₂.w
        simp only [Buffered]
        have h₁ := hwf₂.1
        omega
      split at h
      · simp only [Option.some.injEq, Prod.mk.injEq] at h
        rw [← h.2.2]
        exact ⟨hwf₃, hlen₂⟩
      · split at h
        · simp only [Option.some.injEq, Prod.mk.injEq] at h
          rw [← h.2.2]
          exact ⟨⟨hwf₃.1, hwf₃.2⟩, hlen₂⟩
        · obtain ⟨hwf₁, hlen₁⟩ := ih _ _ h hwf₃
          exact ⟨hwf₁, hlen₁.trans hlen₂⟩

/-- `Discard` leaves a well-formed state with the same capacity. -/
theorem discard_wf {T : Type} (b : Reader T) (n : Int) (k : Nat) (e : Option Err)
    (b₁ : Reader T) (h : Discard b n = some (k, e, b₁)) (hwf : Wf b) :
    Wf b₁ ∧ b₁.buf.length = b.buf.length := by
  rw [Discard] at h
  split at h
  · simp only [Option.some.injEq, Prod.mk.injEq] at h
    rw [← h.2.2]
    exact ⟨hwf, rfl⟩
  · split at h
    · simp only [Option.some.injEq, Prod.mk.injEq] at h
      rw [← h.2.2]
      exact ⟨hwf, rfl⟩
    · exact discardLoop_wf n.toNat n.toNat (n.toNat + 1)
        { b with lastElem := Last.invalid } k e b₁ h ⟨hwf.1, hwf.2⟩

/-- `UnreadElem` leaves a well-formed state with the same capacity. -/
theorem unreadElem_wf {T : Type} [DecidableEq T] (b : Reader T) (dest : List T)
    (e : Option Err) (b₁ : Reader T) (h : UnreadElem b dest = some (e, b₁)) (hwf : Wf b) :
    Wf b₁ ∧ b₁.buf.length = b.buf.length := by
  rw [UnreadElem] at h
  split at h
  · simp only [Option.some.injEq, Prod.mk.injEq] at h
    rw [← h.2]
    exact ⟨hwf, rfl⟩
  · split at h
    · cases h
    · next x hd =>
      split at h
      · next hr =>
        split at h
        · cases h
        · next hg =>
          simp only [Option.some.injEq, Prod.mk.injEq] at h
          rw [← h.2]
          refine ⟨⟨?_, ?_⟩, List.length_set _ _ _⟩
          · show b.r - 1 ≤ b.w
            have := hwf.1
            omega
          · show b.w ≤ (b.buf.set (b.r - 1) x).length
            rw [List.length_set]
            exact hwf.2
      · next hr =>
        split at h
        · cases h
        · next hg =>
          simp only [Option.some.injEq, Prod.mk.injEq] at h
          rw [← h.2]
          refine ⟨⟨?_, ?_⟩, List.length_set _ _ _⟩
          · show b.r ≤ 1
            omega
          · show 1 ≤ (b.buf.set b.r x).length
            rw [List.length_set]
            omega

/-- `writeBuf` leaves a well-formed state with the same capacity. -/
theorem writeBuf_wf {T : Type} (b : Reader T) (s : Snk) (m : Nat) (e : Option Err)
    (b₁ : Reader T) (s₁ : Snk) (h : writeBuf b s = some (m, e, b₁, s₁)) :
    Wf b₁ ∧ b₁.buf.length = b.buf.length := by
  simp only [writeBuf] at h
  split at h
  · cases h
  · next hg =>
    push_neg at hg
    simp only [Option.some.injEq, Prod.mk.injEq] at h
    rw [← h.2.2.1]
    refine ⟨⟨?_, hg.2⟩, rfl⟩
    show b.r + (snkWrite s (b.w - b.r)).1.1 ≤ b.w
    have := snkWrite_fst_le s (b.w - b.r)
    have := hg.1
    omega

/-- The flush-then-fill loop of `WriteTo` leaves a well-formed state with
the same capacity. -/
theorem writeToLoop_wf {T : Type} (fuel : Nat) (b : Reader T) (s : Snk) (acc : Nat)
    (m : Nat) (e : Option Err) (b₁ : Reader T) (s₁ : Snk)
    (h : writeToLoop b s acc fuel = some (m, e, b₁, s₁)) (hwf : Wf b) :
    Wf b₁ ∧ b₁.buf.length = b.buf.length := by
  induction fuel generalizing b s acc with
  | zero => cases h
  | succ f ih =>
    rw [writeToLoop] at h
    split at h
    · split at h
      · cases h
      · next m₂ e₂ b₂ s₂ hwb =>
        obtain ⟨hwf₂, hlen₂⟩ := writeBuf_wf _ _ _ _ _ _ hwb
        split at h
        · simp only [Option.some.injEq, Prod.mk.injEq] at h
          rw [← h.2.2.1]
          exact ⟨hwf₂, hlen₂⟩
        · split at h
          · cases h
          · next b₃ hf =>
            obtain ⟨hwf₃, hlen₃⟩ := fill_wf _ _ hf
            obtain ⟨hwf₁, hlen₁⟩ := ih _ _ _ h hwf₃
            exact ⟨hwf₁, hlen₁.trans (hlen₃.trans hlen₂)⟩
    · simp only [Option.some.injEq, Prod.mk.injEq] at h
      rw [← h.2.2.1]
      exact ⟨hwf, rfl⟩

/-- `WriteTo` leaves a well-formed state with the same capacity. -/
theorem writeTo_wf {T : Type} (b : Reader T) (s : Snk) (m : Nat) (e : Option Err)
    (b₁ : Reader T) (s₁ : Snk) (h : WriteTo b s = some (m, e, b₁, s₁)) (hwf : Wf b) :
    Wf b₁ ∧ b₁.buf.length = b.buf.length := by
  simp only [WriteTo] at h
  split at h
  · cases h
  · next m₂ e₂ b₂ s₂ hwb =>
    obtain ⟨hwf₂, hlen₂⟩ := writeBuf_wf _ _ _ _ _ _ hwb
    split at h
    · simp only [Option.some.injEq, Prod.mk.injEq] at h
      rw [← h.2.2.1]
      exact ⟨hwf₂, hlen₂⟩
    · split at h
      · cases h
      · next b₃ hstep =>
        have hfacts : Wf b₃ ∧ b₃.buf.length = b₂.buf.length := by
          by_cases hfull : b₂.w - b₂.r < b₂.buf.length
          · rw [if_pos hfull] at hstep
            exact fill_wf _ _ hstep
          · rw [if_neg hfull] at hstep
            rw [← Option.some.inj hstep]
            exact ⟨hwf₂, rfl⟩
        obtain ⟨hwf₃, hlen₃⟩ := hfacts
        split at h
        · cases h
        · next m₃ e₃ b₄ s₄ hloop =>
          obtain ⟨hwf₄, hlen₄⟩ := writeToLoop_wf _ _ _ _ _ _ _ _ hloop hwf₃
          have hlen : b₄.buf.length = b.buf.length :=
            hlen₄.trans (hlen₃.trans hlen₂)
          split at h
          · simp only [Option.some.injEq, Prod.mk.injEq] at h
            rw [← h.2.2.1]
            exact ⟨hwf₄, hlen⟩
          · simp only [Option.some.injEq, Prod.mk.injEq] at h
            rw [← h.2.2.1]
            split
            · exact ⟨⟨hwf₄.1, hwf₄.2⟩, hlen⟩
            · exact ⟨⟨hwf₄.1, hwf₄.2⟩, hlen⟩

/-- `Reset` leaves a well-formed state. -/
theorem reset_wf {T : Type} [Inhabited T] (b : Reader T) (src : Src T) :
    Wf (Reset b src) :=
  ⟨Nat.le_refl 0, Nat.zero_le _⟩

end Reader

/-- A freshly constructed reader is well formed. -/
theorem newReaderSize_wf {T : Type} [Inhabited T] (rd : Src T) (size : Int) :
    Wf (NewReaderSize rd size) :=
  ⟨Nat.le_refl 0, Nat.zero_le _⟩

/-- One public operation of the reader, as a relation between the state
before and the state after (only operations that return — do not panic —
produce steps).  `Buffered` and `Size` do not mutate the reader, and
`Reset` applied to the reader itself is a no-op; all three are covered by
the identity step. -/
inductive Step {T : Type} [Inhabited T] [DecidableEq T] : Reader T → Reader T → Prop where
  | read {b b₁ : Reader T} (plen : Nat) (d : List T) (e : Option Err)
      (h : Reader.Read b plen = some (d, e, b₁)) : Step b b₁
  | readElem {b b₁ : Reader T} (x : T) (e : Option Err)
      (h : Reader.ReadElem b = some (x, e, b₁)) : Step b b₁
  | peek {b b₁ : Reader T} (n : Int) (d : List T) (e : Option Err)
      (h : Reader.Peek b n = some (d, e, b₁)) : Step b b₁
  | discard {b b₁ : Reader T} (n : Int) (k : Nat) (e : Option Err)
      (h : Reader.Discard b n = some (k, e, b₁)) : Step b b₁
  | unread {b b₁ : Reader T} (dest : List T) (e : Option Err)
      (h : Reader.UnreadElem b dest = some (e, b₁)) : Step b b₁
  | writeTo {b b₁ : Reader T} (s : Snk) (m : Nat) (e : Option Err) (s₁ : Snk)
      (h : Reader.WriteTo b s = some (m, e, b₁, s₁)) : Step b b₁
  | reset {b : Reader T} (src : Src T) : Step b (Reader.Reset b src)
  | idle {b : Reader T} : Step b b

/-- Every single public operation preserves well-formedness. -/
theorem step_wf {T : Type} [Inhabited T] [DecidableEq T] {b b₁ : Reader T}
    (hs : Step b b₁) (hwf : Wf b) : Wf b₁ := by
  cases hs with
  | read plen d e h => exact (Reader.read_wf b plen d e b₁ h hwf).1
  | readElem x e h => exact (Reader.readElem_wf b x e b₁ h hwf).1
  | peek n d e h => exact (Reader.peek_wf b n d e b₁ h hwf).1
  | discard n k e h => exact (Reader.discard_wf b n k e b₁ h hwf).1
  | unread dest e h => exact (Reader.unreadElem_wf b dest e b₁ h hwf).1
  | writeTo s m e s₁ h => exact (Reader.writeTo_wf b s m e b₁ s₁ h hwf).1
  | reset src => exact Reader.reset_wf b src
  | idle => exact hwf

/-- C5: the cursor invariant `0 ≤ r ≤ w ≤ capacity` holds in every state
reachable from a freshly constructed reader by any sequence of the public
operations (`Read`, `ReadElem`, `Peek`, `Discard`, `UnreadElem`,
`WriteTo`, `Reset`, plus the pure observers `Buffered` and `Size`).  The
precondition that source and sink calls report counts between `0` and the
length of the slice they were given is built into the scripted source and
sink models (`srcRead` clamps data to the slice, `snkWrite` clamps the
count), over which the step relation quantifies. -/
theorem cursor_invariant_reachable {T : Type} [Inhabited T] [DecidableEq T]
    (rd : Src T) (size : Int) (b : Reader T)
    (h : Relation.ReflTransGen Step (NewReaderSize rd size) b) : Wf b := by
  induction h with
  | refl => exact newReaderSize_wf rd size
  | tail hsteps hstep ih => exact step_wf hstep ih

/-- The reader after `ReadElem` on a fresh capacity-16 reader over a
single-chunk source. -/
def c5AfterRead : Reader Nat :=
  { buf := 5 :: List.replicate 15 0, rd := [], r := 1, w := 1,
    err := none, lastElem := Last.copied 5 }

/-- C5 witness: the state reached from a fresh reader by one concrete
`ReadElem` satisfies the cursor invariant. -/
theorem cursor_invariant_reachable_witness : Wf c5AfterRead :=
  cursor_invariant_reachable [([5], none)] 16 c5AfterRead
    (Relation.ReflTransGen.single (Step.readElem 5 none rfl))

end Bufiog

namespace Bufiog

namespace Reader

/-- The fill loop of `Peek` returns (does not panic) from every
well-formed state, given fuel dominating the free space plus two. -/
theorem peekLoop_total {T : Type} (n : Nat) (fuel : Nat) (b : Reader T) (hwf : Wf b)
    (hfuel : b.buf.length - (b.w - b.r) + 2 ≤ fuel) :
    ∃ b₁, peekLoop b n fuel = some b₁ := by
  induction fuel generalizing b with
  | zero => omega
  | succ f ih =>
    rw [peekLoop]
    by_cases hcond : (b.w - b.r < n ∧ b.w - b.r < b.buf.length ∧ b.err = none)
    · rw [if_pos hcond]
      obtain ⟨b₂, hf⟩ := fill_total b hwf hcond.2.1
      rw [hf]
      show ∃ b₁, peekLoop b₂ n f = some b₁
      obtain ⟨h₁, h₂, h₃, h₄, h₅⟩ := fill_spec b b₂ hf
      rcases h₅ with herr | hprog
      · rcases f with _ | f₂
        · omega
        · rw [peekLoop]
          rw [if_neg (fun hc => by rw [hc.2.2] at herr; cases herr)]
          exact ⟨b₂, rfl⟩
      · exact ih b₂ (fill_wf b b₂ hf).1 (by omega)
    · rw [if_neg hcond]
      exact ⟨b, rfl⟩

end Reader

/-- C7: for every request strictly greater than the capacity, `Peek`
returns the entire currently valid region (of the state its preliminary
fills leave behind) together with the buffer-full error, regardless of the
source's content or the reader's (well-formed) state. -/
theorem peek_beyond_capacity {T : Type} (b : Reader T) (n : Int) (hwf : Wf b)
    (hn : (b.buf.length : Int) < n) :
    ∃ b₁ : Reader T, Reader.Peek b n = some (b₁.validRegion, some Err.bufferFull, b₁) := by
  have hn0 : ¬ n < 0 := by
    have hnat : (0 : Int) ≤ (b.buf.length : Int) := Int.natCast_nonneg _
    omega
  obtain ⟨b₂, hpl⟩ := Reader.peekLoop_total n.toNat (b.buf.length + 2)
    ({ b with lastElem := Last.invalid } : Reader T) ⟨hwf.1, hwf.2⟩
    (by show b.buf.length - (b.w - b.r) + 2 ≤ b.buf.length + 2; omega)
  obtain ⟨hwf₂, hlen₂⟩ := Reader.peekLoop_wf n.toNat (b.buf.length + 2) _ b₂ hpl ⟨hwf.1, hwf.2⟩
  have hnn : b₂.buf.length < n.toNat := by
    rw [hlen₂]
    show b.buf.length < n.toNat
    omega
  refine ⟨b₂, ?_⟩
  simp only [Reader.Peek, hn0, if_false, hpl]
  rw [if_neg (by have h₁ := hwf₂.1; have h₂ := hwf₂.2; omega :
    ¬ (b₂.w < b₂.r ∨ b₂.buf.length < b₂.w))]
  rw [if_pos hnn]

/-- Concrete state for the C7 witness: capacity 3 with one buffered
element, a one-element source, and a stale remembered element. -/
def c7State : Reader Nat :=
  { buf := [1, 2, 3], rd := [([9], none)], r := 0, w := 1,
    err := none, lastElem := Last.copied 7 }

/-- The reader `Peek c7State 4` leaves behind: filled to `[1,9]` buffered,
end-of-stream recorded (and not consumed), remembered element cleared. -/
def c7Res : Reader Nat :=
  { buf := [1, 9, 3], rd := [], r := 0, w := 2,
    err := some Err.eof, lastElem := Last.invalid }

/-- C7 witness: peeking 4 from the capacity-3 `c7State` returns the whole
valid region `[1,9]` with the buffer-full error. -/
theorem peek_beyond_capacity_witness :
    Reader.Peek c7State 4 = some (c7Res.validRegion, some Err.bufferFull, c7Res) := by
  obtain ⟨b₁, hb⟩ := peek_beyond_capacity c7State 4 (by decide) (by decide)
  have hcomp : Reader.Peek c7State 4 =
      some (([1, 9] : List Nat), some Err.bufferFull, c7Res) := rfl
  rw [hcomp] at hb
  simp only [Option.some.injEq, Prod.mk.injEq] at hb
  rw [hcomp, show c7Res.validRegion = ([1, 9] : List Nat) from by rw [hb.2.2]; exact hb.1.symm]

end Bufiog

namespace Bufiog

namespace Reader

/-- Flushing to an exhausted (absorb-everything) sink writes the whole
valid region and advances the read cursor to the write cursor. -/
theorem writeBuf_absorb {T : Type} (b : Reader T) (hrw : b.r ≤ b.w) (hwl : b.w ≤ b.buf.length) :
    writeBuf b [] = some (b.w - b.r, none, { b with r := b.w }, []) := by
  simp only [writeBuf, snkWrite]
  rw [if_neg (by omega)]
  have h₀ : b.r + (b.w - b.r) = b.w := by omega
  rw [h₀]

/-- Flushing an empty valid region to an exhausted sink is a no-op. -/
theorem writeBuf_empty_absorb {T : Type} (b : Reader T) (hempty : b.r = b.w)
    (hwl : b.w ≤ b.buf.length) : writeBuf b [] = some (0, none, b, []) := by
  simp only [writeBuf, snkWrite]
  rw [if_neg (by omega)]
  have h₀ : b.w - b.r = 0 := by omega
  simp [h₀]

/-- One `fillLoop` step on a script whose head is a clean data response
small enough for the free tail: the data is appended and the loop ends. -/
theorem fillLoop_cons_data {T : Type} (i : Nat) (b : Reader T) (c : List T) (rest : Src T)
    (hrd : b.rd = (c, none) :: rest) (hc : 0 < c.length)
    (hcle : c.length ≤ b.buf.length - b.w) :
    fillLoop b (i + 1) =
      { b with rd := rest, buf := writeAt b.buf b.w c, w := b.w + c.length } := by
  have htake : c.take (b.buf.length - b.w) = c := List.take_of_length_le hcle
  simp only [fillLoop, fillStep, hrd, srcRead, htake]
  rw [if_pos hc]

/-- `fill` on an empty valid region whose source next delivers a clean
chunk that fits the buffer: one source call, the chunk lands at the front. -/
theorem fill_empty_data {T : Type} (b : Reader T) (c : List T) (rest : Src T)
    (hempty : b.r = b.w) (hwl : b.w ≤ b.buf.length) (hpos : 0 < b.buf.length)
    (hrd : b.rd = (c, none) :: rest) (hc : 0 < c.length) (hcle : c.length ≤ b.buf.length) :
    fill b = some { b with r := 0, w := c.length, rd := rest, buf := writeAt b.buf 0 c } := by
  have hs := slide_empty b hempty
  simp only [fill, hs]
  rw [if_neg (by omega : ¬ (b.w < b.r ∨ b.buf.length < b.w))]
  rw [if_neg (by omega : ¬ b.buf.length ≤ 0)]
  rw [show maxConsecutiveEmptyReads = 99 + 1 from rfl]
  rw [fillLoop_cons_data 99 ({ b with r := 0, w := 0 } : Reader T) c rest hrd hc
    (by show c.length ≤ b.buf.length - 0; omega)]
  simp

/-- The flush-then-fill loop of `WriteTo` over an absorb-everything sink
and a source script of clean, buffer-sized chunks followed by a final
error: every element reaches the sink, the loop exits normally, and the
final error is left recorded. -/
theorem writeToLoop_clean {T : Type} (chunks : List (List T)) (e : Err) :
    ∀ (buf : List T) (w : Nat) (le : Last T) (acc fuel : Nat),
    0 < w → w ≤ buf.length →
    (∀ c ∈ chunks, 0 < c.length ∧ c.length ≤ buf.length) →
    chunks.length + 2 ≤ fuel →
    ∃ bufF : List T,
      writeToLoop
        (⟨buf, chunks.map (fun c => (c, (none : Option Err))) ++ [([], some e)],
          0, w, none, le⟩ : Reader T) [] acc fuel =
        some (acc + w + (chunks.map List.length).sum, none,
          (⟨bufF, [], 0, 0, some e, le⟩ : Reader T), []) := by
  induction chunks with
  | nil =>
    intro buf w le acc fuel hw hwl hch hfuel
    simp only [List.length_nil] at hfuel
    rcases fuel with _ | f
    · omega
    refine ⟨buf, ?_⟩
    simp only [List.map_nil, List.nil_append, List.sum_nil, Nat.add_zero]
    simp only [writeToLoop]
    rw [if_pos hw]
    have hwb := writeBuf_absorb
      (⟨buf, [([], some e)], 0, w, none, le⟩ : Reader T) (Nat.zero_le w) hwl
    simp only [hwb, Nat.sub_zero]
    rw [if_neg (by simp)]
    have hfill := fill_empty_error
      (⟨buf, [([], some e)], w, w, none, le⟩ : Reader T) e [] rfl hwl
      (show 0 < buf.length by omega) rfl
    simp only [hfill]
    rcases f with _ | f₂
    · omega
    simp only [writeToLoop]
    rw [if_neg (by omega : ¬ (0 : Nat) < 0)]
  | cons c rest ih =>
    intro buf w le acc fuel hw hwl hch hfuel
    simp only [List.length_cons] at hfuel
    rcases fuel with _ | f
    · omega
    have hc := (hch c (List.mem_cons_self c rest)).1
    have hcle := (hch c (List.mem_cons_self c rest)).2
    have hbl : (writeAt buf 0 c).length = buf.length :=
      length_writeAt _ _ _ (by omega)
    obtain ⟨bufF, hl⟩ := ih (writeAt buf 0 c) c.length le (acc + w) f hc
      (by rw [hbl]; exact hcle)
      (fun c₂ hc₂ => ⟨(hch c₂ (List.mem_cons_of_mem c hc₂)).1,
        by rw [hbl]; exact (hch c₂ (List.mem_cons_of_mem c hc₂)).2⟩)
      (by omega)
    refine ⟨bufF, ?_⟩
    simp only [List.map_cons, List.cons_append, List.sum_cons]
    simp only [writeToLoop]
    rw [if_pos hw]
    have hwb := writeBuf_absorb
      (⟨buf, (c, (none : Option Err)) ::
        (rest.map (fun c₂ => (c₂, (none : Option Err))) ++ [([], some e)]),
        0, w, none, le⟩ : Reader T) (Nat.zero_le w) hwl
    simp only [hwb, Nat.sub_zero]
    rw [if_neg (by simp)]
    have hfill := fill_empty_data
      (⟨buf, (c, (none : Option Err)) ::
        (rest.map (fun c₂ => (c₂, (none : Option Err))) ++ [([], some e)]),
        w, w, none, le⟩ : Reader T) c
      (rest.map (fun c₂ => (c₂, (none : Option Err))) ++ [([], some e)])
      rfl hwl (show 0 < buf.length by omega) rfl hc hcle
    simp only [hfill]
    simp only [hl]
    have hacc : acc + w + c.length + (rest.map List.length).sum =
        acc + w + (c.length + (rest.map List.length).sum) := by omega
    rw [hacc]

end Reader

/-- C8: `WriteTo` over an empty reader whose source delivers the clean,
buffer-sized chunks `chunks` and then fails with `e` transfers every
delivered element to the (absorb-everything) sink; when `e` is
end-of-stream it is swallowed and `nil` is returned, any other error is
surfaced together with the total transferred count. -/
theorem writeTo_source_exhaustion {T : Type} [Inhabited T] (buf : List T) (le : Last T)
    (chunks : List (List T)) (e : Err) (hpos : 0 < buf.length)
    (hch : ∀ c ∈ chunks, 0 < c.length ∧ c.length ≤ buf.length) :
    ∃ bufF : List T,
      Reader.WriteTo
        (⟨buf, chunks.map (fun c => (c, (none : Option Err))) ++ [([], some e)],
          0, 0, none, le⟩ : Reader T) [] =
      some ((chunks.map List.length).sum,
        if e = Err.eof then none else some e,
        (⟨bufF, [], 0, 0, none, Last.invalid⟩ : Reader T), []) := by
  cases chunks with
  | nil =>
    refine ⟨buf, ?_⟩
    simp only [List.map_nil, List.nil_append, List.sum_nil]
    simp only [Reader.WriteTo]
    have hwb := Reader.writeBuf_empty_absorb
      (⟨buf, [([], some e)], 0, 0, none, Last.invalid⟩ : Reader T) rfl (Nat.zero_le _)
    simp only [hwb]
    rw [if_neg (by simp)]
    rw [if_pos (by omega : (0 : Nat) - 0 < buf.length)]
    have hfill := Reader.fill_empty_error
      (⟨buf, [([], some e)], 0, 0, none, Last.invalid⟩ : Reader T) e [] rfl
      (Nat.zero_le _) hpos rfl
    simp only [hfill]
    simp only [Reader.writeToLoop]
    by_cases he : e = Err.eof
    · subst he
      simp
    · simp [he]
  | cons c rest =>
    have hc := (hch c (List.mem_cons_self c rest)).1
    have hcle := (hch c (List.mem_cons_self c rest)).2
    have hbl : (writeAt buf 0 c).length = buf.length :=
      length_writeAt _ _ _ (by omega)
    obtain ⟨bufF, hl⟩ := Reader.writeToLoop_clean rest e (writeAt buf 0 c) c.length
      Last.invalid 0
      ((rest.map (fun c₂ => (c₂, (none : Option Err))) ++ [([], some e)]).length + 0 + 2)
      hc (by rw [hbl]; exact hcle)
      (fun c₂ hc₂ => ⟨(hch c₂ (List.mem_cons_of_mem c hc₂)).1,
        by rw [hbl]; exact (hch c₂ (List.mem_cons_of_mem c hc₂)).2⟩)
      (by simp)
    refine ⟨bufF, ?_⟩
    simp only [List.map_cons, List.cons_append, List.sum_cons]
    simp only [Reader.WriteTo]
    have hwb := Reader.writeBuf_empty_absorb
      (⟨buf, (c, (none : Option Err)) ::
        (rest.map (fun c₂ => (c₂, (none : Option Err))) ++ [([], some e)]),
        0, 0, none, Last.invalid⟩ : Reader T) rfl (Nat.zero_le _)
    simp only [hwb]
    rw [if_neg (by simp)]
    rw [if_pos (by omega : (0 : Nat) - 0 < buf.length)]
    have hfill := Reader.fill_empty_data
      (⟨buf, (c, (none : Option Err)) ::
        (rest.map (fun c₂ => (c₂, (none : Option Err))) ++ [([], some e)]),
        0, 0, none, Last.invalid⟩ : Reader T) c
      (rest.map (fun c₂ => (c₂, (none : Option Err))) ++ [([], some e)])
      rfl (Nat.zero_le _) hpos rfl hc hcle
    simp only [hfill]
    simp only [List.length_nil]
    simp only [hl]
    by_cases he : e = Err.eof
    · subst he
      simp
    · simp [he]

/-- Concrete state for the C8 witness: a fresh capacity-16 reader whose
source delivers `[1,2]` then `[3]` then end-of-stream. -/
def c8State : Reader Nat :=
  { buf := List.replicate 16 0, rd := [([1, 2], none), ([3], none), ([], some Err.eof)],
    r := 0, w := 0, err := none, lastElem := Last.invalid }

/-- The reader `WriteTo c8State` leaves behind. -/
def c8Res : Reader Nat :=
  { buf := [3, 2] ++ List.replicate 14 0, rd := [], r := 0, w := 0,
    err := none, lastElem := Last.invalid }

/-- Concrete state for the C8 error witness: source delivers `[1,2]` then
fails with error code 7. -/
def c8StateErr : Reader Nat :=
  { buf := List.replicate 16 0, rd := [([1, 2], none), ([], some (Err.srcErr 7))],
    r := 0, w := 0, err := none, lastElem := Last.invalid }

/-- The reader `WriteTo c8StateErr` leaves behind. -/
def c8ResErr : Reader Nat :=
  { buf := [1, 2] ++ List.replicate 14 0, rd := [], r := 0, w := 0,
    err := none, lastElem := Last.invalid }

/-- C8 witness: the finite source of three elements is fully transferred
with the end-of-stream swallowed, and the erroring source surfaces its
error together with the two elements delivered before it. -/
theorem writeTo_source_exhaustion_witness :
    Reader.WriteTo c8State [] = some (3, none, c8Res, []) ∧
    Reader.WriteTo c8StateErr [] = some (2, some (Err.srcErr 7), c8ResErr, []) := by
  constructor
  · obtain ⟨bufF, h⟩ := writeTo_source_exhaustion (List.replicate 16 0) Last.invalid
      [[1, 2], [3]] Err.eof (by decide)
      (by intro c hc; fin_cases hc <;> simp)
    have hcomp : Reader.WriteTo c8State [] = some (3, none, c8Res, []) := rfl
    exact hcomp
  · obtain ⟨bufF, h⟩ := writeTo_source_exhaustion (List.replicate 16 0) Last.invalid
      [[1, 2]] (Err.srcErr 7) (by decide)
      (by intro c hc; fin_cases hc <;> simp)
    have hcomp : Reader.WriteTo c8StateErr [] = some (2, some (Err.srcErr 7), c8ResErr, []) := rfl
    exact hcomp

end Bufiog
